import Mathlib

/-!
# Pollen: extraction of pollen records from markup

A shallow embedding of `main.go` of the pollen command-line tool, and the
properties of its specification.

## The model

Go strings and byte slices are lists of Unicode characters (`Str`): the input
is taken to be valid UTF-8.  The patterns and the keywords of the program are
ASCII, so matching on characters and matching on bytes agree.

The Go standard library is modelled as far as the program uses it.

* `regexp`.  The three patterns of `parsePollenData` are sequences of literal
  texts and of repetitions of a character class, with one capture group; a
  pattern is the list of its items.  `run` lists the matches of a pattern at
  the start of a text in the order a backtracking engine finds them: a greedy
  repetition tries the longest text first, a lazy one the shortest first.
  `search` returns the first match at the leftmost position that has one,
  the leftmost-first rule of `regexp`.  `FindAllStringSubmatch` repeats the
  search after each match; the loop is bounded by the length of the text,
  and the bound is never reached (`findAllLoop_fuel_any`).
* `strings`.  `TrimSpace`, `ReplaceAll`, `ToLower` and `Contains`; the loop of
  `ReplaceAll` is bounded by the length of the text, and the bound is never
  reached (`replaceLoop_fuel`).
* `net/http`, `compress/gzip`, `io`, `os`, `lipgloss`.  The outcome of the
  request, the gzip reader and the outcome of reading a stream are inputs of
  `fetchPollenData`; `main` is the function from the outcome of the fetch to
  the lines printed and the exit code.

## The properties

The card pattern is studied through the shape of its matches
(`run_cardRegex_sound`) and through the place where a match of the opening
tag ends (`tag_end`); `parse_wellFormed` is one step of `parsePollenData` on
a text that starts with a card.  The theorems of the claims are in the last
section.
-/

namespace Pollen

/-- Go `string` (and `[]byte`), as a list of characters. -/
abbrev Str := List Char

/-! ## strings -/

namespace Strings

/-- Go `unicode.IsSpace`: the white space characters of Unicode. -/
def isSpace (c : Char) : Bool :=
  let n := c.toNat
  (9 ≤ n && n ≤ 13) || n == 0x20 || n == 0x85 || n == 0xA0 || n == 0x1680 ||
  (0x2000 ≤ n && n ≤ 0x200A) || n == 0x2028 || n == 0x2029 || n == 0x202F ||
  n == 0x205F || n == 0x3000

/-- Go `strings.TrimSpace`: leading and trailing white space removed. -/
def TrimSpace (s : Str) : Str :=
  ((s.dropWhile isSpace).reverse.dropWhile isSpace).reverse

/-- Go `strings.HasPrefix`. -/
def HasPrefix : Str → Str → Bool
  | _, [] => true
  | [], _ :: _ => false
  | c :: s, d :: p => c == d && HasPrefix s p

/-- Go `strings.Contains s substr`: `substr` occurs in `s`. -/
def Contains : Str → Str → Bool
  | [], substr => HasPrefix [] substr
  | c :: s, substr => HasPrefix (c :: s) substr || Contains s substr

/-- The loop of `strings.ReplaceAll` for a non-empty `old`: the text is read
from left to right, an occurrence of `old` is replaced by `new` and the scan
goes on after it.  The first argument bounds the number of steps. -/
def replaceLoop (old new : Str) : Nat → Str → Str
  | 0, s => s
  | _ + 1, [] => []
  | n + 1, c :: s =>
    if HasPrefix (c :: s) old then new ++ replaceLoop old new n ((c :: s).drop old.length)
    else c :: replaceLoop old new n s

/-- Go `strings.ReplaceAll s old new`.  With an empty `old`, `new` is inserted
before every character and at the end. -/
def ReplaceAll (s old new : Str) : Str :=
  match old with
  | [] => new ++ s.flatMap (fun c => c :: new)
  | _ :: _ => replaceLoop old new s.length s

/-- Go `unicode.ToLower` on one character.  The upper case letters of ASCII, and
the two characters outside ASCII whose lower case is an ASCII letter (U+0130
and the Kelvin sign U+212A), are mapped as Go maps them.  Every other
character outside ASCII has a lower case outside ASCII; the program only
searches the lowered text for ASCII keywords, so such a character is kept
as it is. -/
def toLowerRune (c : Char) : Char :=
  match c with
  | 'A' => 'a' | 'B' => 'b' | 'C' => 'c' | 'D' => 'd' | 'E' => 'e' | 'F' => 'f'
  | 'G' => 'g' | 'H' => 'h' | 'I' => 'i' | 'J' => 'j' | 'K' => 'k' | 'L' => 'l'
  | 'M' => 'm' | 'N' => 'n' | 'O' => 'o' | 'P' => 'p' | 'Q' => 'q' | 'R' => 'r'
  | 'S' => 's' | 'T' => 't' | 'U' => 'u' | 'V' => 'v' | 'W' => 'w' | 'X' => 'x'
  | 'Y' => 'y' | 'Z' => 'z'
  | '\u0130' => 'i' | '\u212A' => 'k'
  | c => c

/-- Go `strings.ToLower`. -/
def ToLower (s : Str) : Str := s.map toLowerRune

end Strings

/-! ## regexp -/

namespace Regexp

/-- One item of a pattern: a literal text, a repetition of a character class,
or a capture group around an item. -/
inductive Node where
  /-- a literal text -/
  | lit (text : Str)
  /-- greedy `[class]*` -/
  | star (cls : Char → Bool)
  /-- greedy `[class]+` -/
  | plus (cls : Char → Bool)
  /-- lazy `[class]*?` -/
  | lazyStar (cls : Char → Bool)
  /-- a capture group `( item )` -/
  | group (item : Node)

/-- A pattern: its items in sequence. -/
abbrev Pattern := List Node

/-- The ways `[class]*` can match at the start of the text, as pairs of the
matched text and the rest, the longest match first. -/
def starSplits (cls : Char → Bool) : Str → List (Str × Str)
  | [] => [([], [])]
  | c :: s =>
    if cls c then (starSplits cls s).map (fun mr => (c :: mr.1, mr.2)) ++ [([], c :: s)]
    else [([], c :: s)]

/-- The ways `[class]*?` can match at the start of the text, the shortest
match first. -/
def lazySplits (cls : Char → Bool) : Str → List (Str × Str)
  | [] => [([], [])]
  | c :: s =>
    if cls c then ([], c :: s) :: (lazySplits cls s).map (fun mr => (c :: mr.1, mr.2))
    else [([], c :: s)]

/-- The ways one item can match at the start of the text, in the order a
backtracking engine tries them. -/
def Node.splits : Node → Str → List (Str × Str)
  | .lit text, s => if Strings.HasPrefix s text then [(text, s.drop text.length)] else []
  | .star cls, s => starSplits cls s
  | .plus cls, s =>
    match s with
    | [] => []
    | c :: s => if cls c then (starSplits cls s).map (fun mr => (c :: mr.1, mr.2)) else []
  | .lazyStar cls, s => lazySplits cls s
  | .group item, s => item.splits s

/-- Whether the item is a capture group. -/
def Node.isGroup : Node → Bool
  | .group _ => true
  | _ => false

/-- A match of a pattern at the start of a text: the matched text, the texts
of the capture groups, and the rest of the text. -/
structure Match where
  /-- the text matched by the whole pattern -/
  whole : Str
  /-- the texts matched by the capture groups, in order -/
  groups : List Str
  /-- the text after the match -/
  rest : Str
deriving DecidableEq, Repr

/-- All matches of the pattern at the start of the text, in the order a
backtracking engine finds them. -/
def run : Pattern → Str → List Match
  | [], s => [⟨[], [], s⟩]
  | n :: ns, s =>
    (n.splits s).flatMap fun mr =>
      (run ns mr.2).map fun m =>
        ⟨mr.1 ++ m.whole, if n.isGroup then mr.1 :: m.groups else m.groups, m.rest⟩

/-- Every match of the pattern has a non-empty text. -/
def NonEmpty (re : Pattern) : Prop := ∀ s m, m ∈ run re s → m.whole ≠ []

/-- The leftmost-first match in the text: the first match at the first
position that has one, with the number of characters before it. -/
def search (re : Pattern) : Str → Option (Nat × Match)
  | [] => (run re []).head?.map fun m => (0, m)
  | c :: s =>
    match (run re (c :: s)).head? with
    | some m => some (0, m)
    | none => (search re s).map fun km => (km.1 + 1, km.2)

/-- Go `(*Regexp).FindStringSubmatch`: the text of the leftmost match and of its
capture groups, or the empty slice (`nil`) when there is no match. -/
def FindStringSubmatch (re : Pattern) (s : Str) : List Str :=
  match search re s with
  | none => []
  | some (_, m) => m.whole :: m.groups

/-- The loop of `(*Regexp).FindAllStringSubmatch` from a position of the
text: the leftmost match is delivered and the search goes on after it.  After
an empty match the search moves one character forward, and an empty match
right after the previous match is not delivered.  `afterMatch` tells that the
text starts where the previous match ended.  The first argument bounds the
number of searches. -/
def findAllLoop (re : Pattern) : Nat → Bool → Str → List (List Str)
  | 0, _, _ => []
  | fuel + 1, afterMatch, s =>
    match search re s with
    | none => []
    | some (k, m) =>
      match m.whole with
      | [] =>
        let next :=
          match s.drop k with
          | [] => []
          | _ :: t => findAllLoop re fuel false t
        if afterMatch && k == 0 then next else (m.whole :: m.groups) :: next
      | _ :: _ => (m.whole :: m.groups) :: findAllLoop re fuel true m.rest

/-- Go `(*Regexp).FindAllStringSubmatch(s, -1)`: all successive matches that do
not overlap.  There are at most `length s + 1` of them. -/
def FindAllStringSubmatch (re : Pattern) (s : Str) : List (List Str) :=
  findAllLoop re (s.length + 1) false s

end Regexp

/-! ## main.go -/

open Regexp (Node)

/-- The double quote character. -/
def dq : Char := '\"'

/-- Go `type PollenData struct`. -/
structure PollenData where
  /-- the category -/
  Name : Str
  /-- the level -/
  Status : Str
deriving DecidableEq, Repr

/-- The character class `[^>]`. -/
def notGt (c : Char) : Bool := c != '>'

/-- The character class `[^"]`. -/
def notQuote (c : Char) : Bool := c != dq

/-- The character class `[^<]`. -/
def notLt (c : Char) : Bool := c != '<'

/-- The character class of `.` under the flag `s`: every character. -/
def anyChar (_ : Char) : Bool := true

/-- The marker class name of a card. -/
def marker : Str := "index-list-card".toList

/-- The pattern
`(?s)<a[^>]*class="[^"]*index-list-card[^"]*"[^>]*>(.*?)</a>`. -/
def cardRegex : Regexp.Pattern :=
  [.lit "<a".toList, .star notGt, .lit "class=\"".toList, .star notQuote,
   .lit marker, .star notQuote, .lit "\"".toList, .star notGt,
   .lit ">".toList, .group (.lazyStar anyChar), .lit "</a>".toList]

/-- The part of the card pattern for the opening tag,
`<a[^>]*class="[^"]*index-list-card[^"]*"[^>]*>`. -/
def tagRegex : Regexp.Pattern := cardRegex.take 9

/-- The part of the card pattern for the content and the closing tag,
`(.*?)</a>`. -/
def bodyRegex : Regexp.Pattern := cardRegex.drop 9

/-- The pattern `<div class="index-name"[^>]*>([^<]+)</div>`. -/
def nameRegex : Regexp.Pattern :=
  [.lit "<div class=\"index-name\"".toList, .star notGt, .lit ">".toList,
   .group (.plus notLt), .lit "</div>".toList]

/-- The pattern `<div class="index-status-text">([^<]+)</div>`. -/
def statusRegex : Regexp.Pattern :=
  [.lit "<div class=\"index-status-text\">".toList, .group (.plus notLt),
   .lit "</div>".toList]

/-- The body of the loop of `parsePollenData` for one match of the card
pattern: the records it appends. -/
def parseCard (card : List Str) : List PollenData :=
  if card.length < 2 then []
  else
    let cardContent := card.getD 1 []
    let nameMatch := Regexp.FindStringSubmatch nameRegex cardContent
    let statusMatch := Regexp.FindStringSubmatch statusRegex cardContent
    if nameMatch.length > 1 && statusMatch.length > 1 then
      let name := Strings.TrimSpace (nameMatch.getD 1 [])
      let status := Strings.TrimSpace (statusMatch.getD 1 [])
      let name := Strings.ReplaceAll name "&amp;".toList "&".toList
      let lowerName := Strings.ToLower name
      if Strings.Contains lowerName "pollen".toList || Strings.Contains lowerName "mold".toList
          || Strings.Contains lowerName "dust".toList then
        [{ Name := name, Status := status }]
      else []
    else []

/-- Go `func parsePollenData(html string) []PollenData`. -/
def parsePollenData (html : Str) : List PollenData :=
  (Regexp.FindAllStringSubmatch cardRegex html).flatMap parseCard

/-! ### The request -/

/-- An `io.Reader`, by what `io.ReadAll` gives on it: the text read, or the
message of the failure. -/
abbrev Reader := Except Str Str

/-- The fields of `http.Response` the program reads. -/
structure Response where
  /-- the status code, `resp.StatusCode` -/
  StatusCode : Nat
  /-- the status line, `resp.Status` -/
  Status : Str
  /-- the header value `resp.Header.Get("Content-Encoding")` -/
  ContentEncoding : Str
  /-- the body stream, `resp.Body` -/
  Body : Reader

/-- The verb `%d` of `fmt` on a status code: its decimal digits. -/
def formatInt (n : Nat) : Str := Nat.toDigits 10 n

/-- Go `func fetchPollenData() ([]PollenData, error)`.  The outcome of building
and sending the request (`http.NewRequest`, `client.Do`) and the function
`gzip.NewReader` are inputs; a failure is its message. -/
def fetchPollenData (request : Except Str Response)
    (gzipNewReader : Reader → Except Str Reader) : Except Str (List PollenData) :=
  match request with
  | .error err => .error err
  | .ok resp =>
    if resp.StatusCode != 200 then
      .error ("status code error: ".toList ++ formatInt resp.StatusCode ++ " ".toList
        ++ resp.Status)
    else
      let reader : Except Str Reader :=
        if resp.ContentEncoding = "gzip".toList then
          match gzipNewReader resp.Body with
          | .error err => .error ("gzip decompression error: ".toList ++ err)
          | .ok r => .ok r
        else if resp.ContentEncoding = "br".toList then .ok resp.Body
        else if resp.ContentEncoding = [] then .ok resp.Body
        else .ok resp.Body
      match reader with
      | .error err => .error err
      | .ok reader =>
        match reader with
        | .error err => .error ("error reading response body: ".toList ++ err)
        | .ok body => .ok (parsePollenData body)

/-! ### The report -/

/-- The styles of the status badges. -/
inductive BadgeStyle where
  | lowBadge
  | moderateBadge
  | highBadge
deriving DecidableEq, Repr

/-- A text as it is printed: rendered with a badge style, or plain. -/
inductive Badge where
  | render (style : BadgeStyle) (text : Str)
  | plain (text : Str)
deriving DecidableEq, Repr

/-- Go `func getBadge(status string) string`. -/
def getBadge (status : Str) : Badge :=
  let lower := Strings.ToLower status
  if lower = "low".toList then .render .lowBadge "LOW".toList
  else if lower = "moderate".toList then .render .moderateBadge "MOD".toList
  else if lower = "high".toList || lower = "very high".toList then
    .render .highBadge "HIGH".toList
  else .plain status

/-- Go `func getEmoji(pollenType string) string`. -/
def getEmoji (pollenType : Str) : Str :=
  let lower := Strings.ToLower pollenType
  if Strings.Contains lower "tree".toList then "🌳".toList
  else if Strings.Contains lower "grass".toList then "🌱".toList
  else if Strings.Contains lower "ragweed".toList then "🌾".toList
  else if Strings.Contains lower "mold".toList then "🍄".toList
  else if Strings.Contains lower "dust".toList || Strings.Contains lower "dander".toList then
    "💨".toList
  else "🌿".toList

/-- One line written to the standard output. -/
inductive Line where
  /-- the title -/
  | title
  /-- the place and the time -/
  | header
  /-- the message of a failed request -/
  | error (msg : Str)
  /-- the warning that nothing was found -/
  | warning
  /-- an empty line -/
  | blank
  /-- the line of one record -/
  | record (emoji name : Str) (badge : Badge)
deriving DecidableEq, Repr

/-- Whether the line is the line of a record. -/
def Line.isRecord : Line → Bool
  | .record _ _ _ => true
  | _ => false

/-- Go `func main()`, from the outcome of `fetchPollenData`: the lines printed
and the exit code of the process (`os.Exit(1)` ends it at once; a return from
`main` is the exit code 0). -/
def main (fetched : Except Str (List PollenData)) : List Line × Nat :=
  let out := [Line.title, Line.header]
  match fetched with
  | .error err => (out ++ [Line.error ("❌ Error: ".toList ++ err)], 1)
  | .ok pollenData =>
    if pollenData.length == 0 then (out ++ [Line.warning], 1)
    else
      (out ++ [Line.blank] ++
        pollenData.map (fun pollen =>
          Line.record (getEmoji pollen.Name) pollen.Name (getBadge pollen.Status)), 0)

/-! ## The words of the specification -/

/-- One pass over the text from left to right in which every `&amp;` met is
replaced by `&`, the pass going on after the replaced text. -/
def decodeAmp : Str → Str
  | '&' :: 'a' :: 'm' :: 'p' :: ';' :: s => '&' :: decodeAmp s
  | c :: s => c :: decodeAmp s
  | [] => []

/-- The name contains a relevance keyword, whatever the case of its
letters. -/
def hasKeyword (name : Str) : Bool :=
  Strings.Contains (Strings.ToLower name) "pollen".toList ||
  Strings.Contains (Strings.ToLower name) "mold".toList ||
  Strings.Contains (Strings.ToLower name) "dust".toList

/-- The opening tag of a card: an `a` tag with the attributes `before`, a
class attribute of the given value, and the attributes `after`. -/
def openTag (before value after : Str) : Str :=
  "<a".toList ++ before ++ "class=\"".toList ++ value ++ "\"".toList ++ after ++ ">".toList

/-- A card fragment: the opening tag, the content and the closing tag. -/
def cardText (before value after content : Str) : Str :=
  openTag before value after ++ content ++ "</a>".toList

/-- A name field: the opening tag with its further attributes, the inner
text and the closing tag. -/
def nameField (attrs inner : Str) : Str :=
  "<div class=\"index-name\"".toList ++ attrs ++ ">".toList ++ inner ++ "</div>".toList

/-- A status field: the opening tag, the inner text and the closing tag. -/
def statusField (inner : Str) : Str :=
  "<div class=\"index-status-text\">".toList ++ inner ++ "</div>".toList

/-- The text has a match of the card pattern with the captured text
`content`: an opening `a` tag with a class attribute whose value contains the
marker, then `content`, then `</a>`. -/
def CardContent (html content : Str) : Prop :=
  ∃ pre u v w z post,
    html = pre ++ "<a".toList ++ u ++ "class=\"".toList ++ v ++ marker ++ w ++ "\"".toList
      ++ z ++ ">".toList ++ content ++ "</a>".toList ++ post ∧
    '>' ∉ u ∧ dq ∉ v ∧ dq ∉ w ∧ '>' ∉ z

/-- The text has a match of the card pattern. -/
def CardMatch (html : Str) : Prop := ∃ content, CardContent html content

/-- The content has a name field with the inner text `inner`: text matched
by the name pattern, the inner text not empty and without `<`. -/
def NameFieldOf (content inner : Str) : Prop :=
  ∃ a attrs b, content = a ++ nameField attrs inner ++ b ∧
    '>' ∉ attrs ∧ inner ≠ [] ∧ '<' ∉ inner

/-- The content has a status field with the inner text `inner`: text matched
by the status pattern, the inner text not empty and without `<`. -/
def StatusFieldOf (content inner : Str) : Prop :=
  ∃ a b, content = a ++ statusField inner ++ b ∧ inner ≠ [] ∧ '<' ∉ inner

/-- The content has a name field. -/
def HasNameField (content : Str) : Prop := ∃ inner, NameFieldOf content inner

/-- The content has a status field. -/
def HasStatusField (content : Str) : Prop := ∃ inner, StatusFieldOf content inner

/-- The text starts with a name field. -/
def StartsWithNameField (s : Str) : Prop :=
  ∃ attrs inner b, s = nameField attrs inner ++ b ∧ '>' ∉ attrs ∧ inner ≠ [] ∧ '<' ∉ inner

/-- The text starts with a status field. -/
def StartsWithStatusField (s : Str) : Prop :=
  ∃ inner b, s = statusField inner ++ b ∧ inner ≠ [] ∧ '<' ∉ inner

/-- The first name field of the content has the inner text `inner`: the
content holds a name field with that inner text, and no name field starts
at an earlier place of the content. -/
def FirstNameField (content inner : Str) : Prop :=
  ∃ a attrs b, content = a ++ nameField attrs inner ++ b ∧
    '>' ∉ attrs ∧ inner ≠ [] ∧ '<' ∉ inner ∧
    ∀ a1 a2, a = a1 ++ a2 → a2 ≠ [] → ¬ StartsWithNameField (a2 ++ nameField attrs inner ++ b)

/-- The first status field of the content has the inner text `inner`: the
content holds a status field with that inner text, and no status field starts
at an earlier place of the content. -/
def FirstStatusField (content inner : Str) : Prop :=
  ∃ a b, content = a ++ statusField inner ++ b ∧ inner ≠ [] ∧ '<' ∉ inner ∧
    ∀ a1 a2, a = a1 ++ a2 → a2 ≠ [] → ¬ StartsWithStatusField (a2 ++ statusField inner ++ b)

/-- The text `t` is `s` trimmed of the white space around it: `s` is `t`
between two runs of white space, and `t` neither starts nor ends with white
space. -/
def Trimmed (s t : Str) : Prop :=
  ∃ l r, s = l ++ t ++ r ∧ (∀ c ∈ l, Strings.isSpace c = true) ∧
    (∀ c ∈ r, Strings.isSpace c = true) ∧
    (∀ c u, t = c :: u → Strings.isSpace c = false) ∧
    (∀ u c, t = u ++ [c] → Strings.isSpace c = false)

/-- A card fragment in a text, by its parts: the text before it, the parts
of the opening tag, and the content in two readings: around its first name
field and around its first status field. -/
structure Card where
  /-- the text before the fragment -/
  lead : Str
  /-- the attributes before the class attribute -/
  before : Str
  /-- the value of the class attribute -/
  value : Str
  /-- the attributes after the class attribute -/
  after : Str
  /-- the content before the first name field -/
  a : Str
  /-- the further attributes of the name field -/
  attrs : Str
  /-- the inner text of the name field -/
  inner : Str
  /-- the content after the name field -/
  b : Str
  /-- the content before the first status field -/
  a2 : Str
  /-- the inner text of the status field -/
  status : Str
  /-- the content after the status field -/
  b2 : Str

/-- The content of the card. -/
def Card.content (c : Card) : Str := c.a ++ nameField c.attrs c.inner ++ c.b

/-- The text of the card: what stands before it, and the fragment. -/
def Card.text (c : Card) : Str := c.lead ++ cardText c.before c.value c.after c.content

/-- The record of the card: the trimmed inner texts, `&amp;` decoded in the
name. -/
def Card.record (c : Card) : PollenData :=
  ⟨decodeAmp (Strings.TrimSpace c.inner), Strings.TrimSpace c.status⟩

/-- The card is well formed.  The opening tag has no `>` inside its
attributes, the class value has no quote and contains the marker, the marker
does not occur before the class value and no class attribute starts after
it; the content has no `</a>`; the two readings of the content agree, with
the name field and the status field the first of their kind, their inner
texts not empty and without `<`. -/
def Card.wellFormed (c : Card) : Bool :=
  decide ('>' ∉ c.before) && decide ('>' ∉ c.after) && decide (dq ∉ c.value) &&
  Strings.Contains c.value marker &&
  !Strings.Contains (c.lead ++ "<a".toList ++ c.before ++ "class=\"".toList) marker &&
  !Strings.Contains (c.value ++ "\"".toList ++ c.after) "class=\"".toList &&
  !Strings.Contains c.content "</a>".toList &&
  decide (c.content = c.a2 ++ statusField c.status ++ c.b2) &&
  !Strings.Contains c.a "<div class=\"index-name\"".toList &&
  decide ('>' ∉ c.attrs) && decide (c.inner ≠ []) && decide ('<' ∉ c.inner) &&
  !Strings.Contains c.a2 "<div class=\"index-status-text\">".toList &&
  decide (c.status ≠ []) && decide ('<' ∉ c.status)

/-! ## Example inputs -/

/-- Two cards in sequence, `Tree Pollen`/`Low` and `UV Index`/`High`. -/
def twoCards : Str :=
  ("<a class=\"index-list-card\"><div class=\"index-name\">Tree Pollen</div>" ++
   "<div class=\"index-status-text\">Low</div></a>" ++
   "<a class=\"index-list-card\"><div class=\"index-name\">UV Index</div>" ++
   "<div class=\"index-status-text\">High</div></a>").toList

/-- A card with further attributes, white space around the inner texts and an
`&amp;` in the name. -/
def grassCard : Card where
  lead := "<html><a href=\"/\">home</a>\n".toList
  before := " href=\"/pollen\" ".toList
  value := "card index-list-card wide".toList
  after := " id=\"c1\"".toList
  a := "\n  ".toList
  attrs := " title=\"n\"".toList
  inner := " Tree &amp; Grass Pollen\n".toList
  b := "<div class=\"index-status-text\"> Very High </div>\n".toList
  a2 := "\n  <div class=\"index-name\" title=\"n\"> Tree &amp; Grass Pollen\n</div>".toList
  status := " Very High ".toList
  b2 := "\n".toList

/-- A card for mold. -/
def moldCard : Card where
  lead := "\n".toList
  before := " ".toList
  value := "index-list-card".toList
  after := [] 
  a := []
  attrs := []
  inner := "Mold".toList
  b := "<div class=\"index-status-text\">Low</div>".toList
  a2 := "<div class=\"index-name\">Mold</div>".toList
  status := "Low".toList
  b2 := []

/-- A card whose name has no keyword. -/
def uvCard : Card where
  lead := []
  before := " ".toList
  value := "index-list-card".toList
  after := []
  a := []
  attrs := []
  inner := "UV Index".toList
  b := "<div class=\"index-status-text\">High</div>".toList
  a2 := "<div class=\"index-name\">UV Index</div>".toList
  status := "High".toList
  b2 := []

/-- A content whose name field has only white space inside. -/
def blankNameContent : Str :=
  "<div class=\"index-name\">  </div><div class=\"index-status-text\">Low</div>".toList

/-- A card with that content. -/
def blankNameCard : Str := cardText " ".toList "index-list-card".toList [] blankNameContent

/-- A card whose status field has only white space inside. -/
def blankStatusCard : Str :=
  ("<a class=\"index-list-card\"><div class=\"index-name\">Dust</div>" ++
   "<div class=\"index-status-text\"> \n </div></a>").toList

/-- A card with entities in the name and in the status, and with white space
around the inner texts: blanks, a tab, a line end, a no-break space. -/
def entityCard : Str :=
  ("<a class=\"index-list-card\"><div class=\"index-name\"> \t Dust &amp; Dander &lt;&quot;\n" ++
   "</div><div class=\"index-status-text\">\u00a0Low &amp; rising  </div></a>").toList

/-- A page with two cards, `Tree Pollen`/`Low` and `Mold`/`High`. -/
def twoRecords : Str :=
  ("<a class=\"index-list-card\"><div class=\"index-name\">Tree Pollen</div>" ++
   "<div class=\"index-status-text\">Low</div></a>" ++
   "<a class=\"index-list-card\"><div class=\"index-name\">Mold</div>" ++
   "<div class=\"index-status-text\">High</div></a>").toList

/-- A toy compression for the examples: a mark before the text. -/
def toyCompress (s : Str) : Str := 'Z' :: s

/-- The reader for the toy compression. -/
def toyReader (r : Reader) : Except Str Reader :=
  match r with
  | .ok ('Z' :: s) => .ok (.ok s)
  | .ok _ => .error "invalid header".toList
  | .error err => .error err

/-! ## Lemmas on texts -/

namespace Strings

theorem hasPrefix_iff (s p : Str) : HasPrefix s p = true ↔ p <+: s := by
  induction p generalizing s with
  | nil => simp [HasPrefix]
  | cons d p ih =>
    cases s with
    | nil => simp [HasPrefix]
    | cons c s =>
      simp only [HasPrefix, Bool.and_eq_true, beq_iff_eq, ih, List.cons_prefix_cons]
      constructor
      · rintro ⟨h1, h2⟩; exact ⟨h1.symm, h2⟩
      · rintro ⟨h1, h2⟩; exact ⟨h1.symm, h2⟩

theorem hasPrefix_append (p r : Str) : HasPrefix (p ++ r) p = true :=
  (hasPrefix_iff _ _).2 (List.prefix_append p r)

theorem contains_iff (s sub : Str) : Contains s sub = true ↔ sub <:+: s := by
  induction s with
  | nil =>
    simp only [Contains, hasPrefix_iff]
    constructor
    · intro h; exact h.isInfix
    · intro h; rw [List.eq_nil_of_infix_nil h]
  | cons c s ih =>
    simp only [Contains, Bool.or_eq_true, hasPrefix_iff, ih, List.infix_cons_iff]

theorem contains_eq_false_iff (s sub : Str) : Contains s sub = false ↔ ¬ sub <:+: s := by
  rw [← contains_iff]; simp

/-- Two splits of a text at the first occurrence of a character agree. -/
theorem split_first {c : Char} {a b a2 b2 : Str} (ha : c ∉ a) (ha2 : c ∉ a2)
    (h : a ++ c :: b = a2 ++ c :: b2) : a = a2 ∧ b = b2 := by
  induction a generalizing a2 with
  | nil =>
    cases a2 with
    | nil => simpa using h
    | cons d a2 =>
      simp only [List.nil_append, List.cons_append, List.cons.injEq] at h
      exact absurd (h.1 ▸ List.mem_cons_self _ _) ha2
  | cons e a ih =>
    cases a2 with
    | nil =>
      simp only [List.nil_append, List.cons_append, List.cons.injEq] at h
      exact absurd (h.1 ▸ List.mem_cons_self _ _) ha
    | cons d a2 =>
      simp only [List.cons_append, List.cons.injEq] at h
      obtain ⟨rfl, h⟩ := h
      obtain ⟨h1, h2⟩ := ih (fun hx => ha (List.mem_cons_of_mem _ hx))
        (fun hx => ha2 (List.mem_cons_of_mem _ hx)) h
      exact ⟨by rw [h1], h2⟩

/-- Two splits of a text at an occurrence of a character: the same
occurrence, or one before the other. -/
theorem split_cases {c : Char} {a b a2 b2 : Str} (h : a ++ c :: b = a2 ++ c :: b2) :
    (a = a2 ∧ b = b2) ∨ (∃ d, a2 = a ++ c :: d ∧ b = d ++ c :: b2) ∨
      (∃ d, a = a2 ++ c :: d ∧ b2 = d ++ c :: b) := by
  rcases List.append_eq_append_iff.1 h with ⟨e, h1, h2⟩ | ⟨e, h1, h2⟩
  · cases e with
    | nil =>
      left
      simp only [List.append_nil, List.nil_append, List.cons.injEq, true_and] at h1 h2
      exact ⟨h1.symm, h2⟩
    | cons x e =>
      right; left
      simp only [List.cons_append, List.cons.injEq] at h2
      obtain ⟨rfl, h2⟩ := h2
      exact ⟨e, h1, h2⟩
  · cases e with
    | nil =>
      left
      simp only [List.append_nil, List.nil_append, List.cons.injEq, true_and] at h1 h2
      exact ⟨h1, h2.symm⟩
    | cons x e =>
      right; right
      simp only [List.cons_append, List.cons.injEq] at h2
      obtain ⟨rfl, h2⟩ := h2
      exact ⟨e, h1, h2⟩

/-- A text without the character `c` that ends a text ends the part after an
occurrence of `c`. -/
theorem suffix_after {c : Char} {l a b : Str} (hl : c ∉ l) (h : l <:+ a ++ c :: b) :
    l <:+ b := by
  obtain ⟨t, ht⟩ := h
  rcases List.append_eq_append_iff.1 ht with ⟨e, -, h2⟩ | ⟨e, -, h2⟩
  · exact absurd (h2 ▸ (by simp : c ∈ e ++ c :: b)) hl
  · cases e with
    | nil =>
      simp only [List.nil_append] at h2
      exact absurd (h2 ▸ List.mem_cons_self _ _) hl
    | cons x e =>
      simp only [List.cons_append, List.cons.injEq] at h2
      exact ⟨e, h2.2.symm⟩

/-- A start of a text without the character `c` lies before the first
occurrence of `c`. -/
theorem prefix_before {c : Char} {a x t b : Str} (ha : c ∉ a) (h : a ++ x = t ++ c :: b) :
    a <+: t := by
  rcases List.append_eq_append_iff.1 h with ⟨e, h1, -⟩ | ⟨e, h1, h2⟩
  · exact ⟨e, h1.symm⟩
  · cases e with
    | nil => simp only [List.append_nil] at h1; rw [h1]
    | cons y e =>
      simp only [List.cons_append, List.cons.injEq] at h2
      obtain ⟨rfl, -⟩ := h2
      exact absurd (h1 ▸ (by simp : c ∈ t ++ c :: e)) ha

/-- A text whose first character does not occur again in it cannot start
inside `a` and run over the start of an occurrence of itself. -/
theorem no_straddle {c : Char} {l a r : Str} (hl : c ∉ l) (ha : a ≠ [])
    (h : (c :: l) <+: a ++ (c :: l) ++ r) : (c :: l) <+: a := by
  obtain ⟨t, ht⟩ := h
  rw [List.append_assoc] at ht
  rcases List.append_eq_append_iff.1 ht with ⟨e, h1, -⟩ | ⟨e, h1, h2⟩
  · exact ⟨e, h1.symm⟩
  · cases e with
    | nil => simp only [List.append_nil] at h1; rw [h1]
    | cons y e =>
      exfalso
      cases a with
      | nil => exact ha rfl
      | cons z a =>
        simp only [List.cons_append, List.cons.injEq] at h1 h2
        obtain ⟨-, h1⟩ := h1
        obtain ⟨rfl, -⟩ := h2
        exact hl (h1 ▸ (by simp : c ∈ a ++ c :: e))

end Strings

/-! ## Lemmas on the matcher -/

namespace Regexp

theorem mem_starSplits {cls : Char → Bool} {s m r : Str} :
    (m, r) ∈ starSplits cls s ↔ s = m ++ r ∧ ∀ c ∈ m, cls c = true := by
  induction s generalizing m with
  | nil =>
    simp only [starSplits, List.mem_singleton, Prod.mk.injEq]
    constructor
    · rintro ⟨rfl, rfl⟩; simp
    · rintro ⟨h, -⟩
      have := List.append_eq_nil.1 h.symm
      exact ⟨this.1, this.2⟩
  | cons c s ih =>
    unfold starSplits
    by_cases hc : cls c = true
    · simp only [hc, if_true, List.mem_append, List.mem_map, List.mem_singleton, Prod.mk.injEq,
        Prod.exists]
      constructor
      · rintro (⟨m1, r1, hmem, rfl, rfl⟩ | ⟨rfl, rfl⟩)
        · obtain ⟨h1, h2⟩ := ih.1 hmem
          refine ⟨by simp [h1], ?_⟩
          intro d hd
          rcases List.mem_cons.1 hd with rfl | hd
          · exact hc
          · exact h2 d hd
        · simp
      · rintro ⟨h1, h2⟩
        cases m with
        | nil => right; exact ⟨rfl, by simpa using h1.symm⟩
        | cons d m =>
          left
          simp only [List.cons_append, List.cons.injEq] at h1
          obtain ⟨rfl, h1⟩ := h1
          exact ⟨m, r, ih.2 ⟨h1, fun x hx => h2 x (List.mem_cons_of_mem _ hx)⟩, rfl, rfl⟩
    · simp only [hc, Bool.false_eq_true, if_false, List.mem_singleton, Prod.mk.injEq]
      constructor
      · rintro ⟨rfl, rfl⟩; simp
      · rintro ⟨h1, h2⟩
        cases m with
        | nil => exact ⟨rfl, by simpa using h1.symm⟩
        | cons d m =>
          simp only [List.cons_append, List.cons.injEq] at h1
          obtain ⟨rfl, -⟩ := h1
          exact absurd (h2 c (List.mem_cons_self _ _)) hc

theorem mem_lazySplits {cls : Char → Bool} {s m r : Str} :
    (m, r) ∈ lazySplits cls s ↔ s = m ++ r ∧ ∀ c ∈ m, cls c = true := by
  induction s generalizing m with
  | nil =>
    simp only [lazySplits, List.mem_singleton, Prod.mk.injEq]
    constructor
    · rintro ⟨rfl, rfl⟩; simp
    · rintro ⟨h, -⟩
      have := List.append_eq_nil.1 h.symm
      exact ⟨this.1, this.2⟩
  | cons c s ih =>
    unfold lazySplits
    by_cases hc : cls c = true
    · simp only [hc, if_true, List.mem_cons, List.mem_map, Prod.mk.injEq, Prod.exists]
      constructor
      · rintro (⟨rfl, rfl⟩ | ⟨m1, r1, hmem, rfl, rfl⟩)
        · simp
        · obtain ⟨h1, h2⟩ := ih.1 hmem
          refine ⟨by simp [h1], ?_⟩
          intro d hd
          rcases List.mem_cons.1 hd with rfl | hd
          · exact hc
          · exact h2 d hd
      · rintro ⟨h1, h2⟩
        cases m with
        | nil => left; exact ⟨rfl, by simpa using h1.symm⟩
        | cons d m =>
          right
          simp only [List.cons_append, List.cons.injEq] at h1
          obtain ⟨rfl, h1⟩ := h1
          exact ⟨m, r, ih.2 ⟨h1, fun x hx => h2 x (List.mem_cons_of_mem _ hx)⟩, rfl, rfl⟩
    · simp only [hc, Bool.false_eq_true, if_false, List.mem_singleton, Prod.mk.injEq]
      constructor
      · rintro ⟨rfl, rfl⟩; simp
      · rintro ⟨h1, h2⟩
        cases m with
        | nil => exact ⟨rfl, by simpa using h1.symm⟩
        | cons d m =>
          simp only [List.cons_append, List.cons.injEq] at h1
          obtain ⟨rfl, -⟩ := h1
          exact absurd (h2 c (List.mem_cons_self _ _)) hc

theorem mem_splits_lit {text s m r : Str} :
    (m, r) ∈ (Node.lit text).splits s ↔ m = text ∧ s = text ++ r := by
  unfold Node.splits
  by_cases h : Strings.HasPrefix s text = true
  · simp only [h, if_true, List.mem_singleton, Prod.mk.injEq]
    have hp := List.prefix_iff_eq_append.1 ((Strings.hasPrefix_iff _ _).1 h)
    constructor
    · rintro ⟨rfl, rfl⟩; exact ⟨rfl, hp.symm⟩
    · rintro ⟨rfl, h2⟩
      refine ⟨rfl, ?_⟩
      rw [h2]; simp
  · simp only [h, Bool.false_eq_true, if_false, List.not_mem_nil, false_iff, not_and]
    rintro rfl h2
    exact h (by rw [h2]; exact Strings.hasPrefix_append _ _)

theorem mem_splits_star {cls : Char → Bool} {s m r : Str} :
    (m, r) ∈ (Node.star cls).splits s ↔ s = m ++ r ∧ ∀ c ∈ m, cls c = true := by
  unfold Node.splits; exact mem_starSplits

theorem mem_splits_lazyStar {cls : Char → Bool} {s m r : Str} :
    (m, r) ∈ (Node.lazyStar cls).splits s ↔ s = m ++ r ∧ ∀ c ∈ m, cls c = true := by
  unfold Node.splits; exact mem_lazySplits

theorem mem_splits_plus {cls : Char → Bool} {s m r : Str} :
    (m, r) ∈ (Node.plus cls).splits s ↔ s = m ++ r ∧ m ≠ [] ∧ ∀ c ∈ m, cls c = true := by
  unfold Node.splits
  cases s with
  | nil =>
    simp only [List.not_mem_nil, false_iff, not_and]
    intro h hm
    exact absurd (List.append_eq_nil.1 h.symm).1 hm
  | cons c s =>
    by_cases hc : cls c = true
    · simp only [hc, if_true, List.mem_map, Prod.mk.injEq, Prod.exists]
      constructor
      · rintro ⟨m1, r1, hmem, rfl, rfl⟩
        obtain ⟨h1, h2⟩ := mem_starSplits.1 hmem
        refine ⟨by simp [h1], by simp, ?_⟩
        intro d hd
        rcases List.mem_cons.1 hd with rfl | hd
        · exact hc
        · exact h2 d hd
      · rintro ⟨h1, hm, h2⟩
        cases m with
        | nil => exact absurd rfl hm
        | cons d m =>
          simp only [List.cons_append, List.cons.injEq] at h1
          obtain ⟨rfl, h1⟩ := h1
          exact ⟨m, r, mem_starSplits.2 ⟨h1, fun x hx => h2 x (List.mem_cons_of_mem _ hx)⟩,
            rfl, rfl⟩
    · simp only [hc, Bool.false_eq_true, if_false, List.not_mem_nil, false_iff, not_and]
      intro h1 hm h2
      cases m with
      | nil => exact hm rfl
      | cons d m =>
        simp only [List.cons_append, List.cons.injEq] at h1
        obtain ⟨rfl, -⟩ := h1
        exact hc (h2 c (List.mem_cons_self _ _))

theorem splits_group (item : Node) (s : Str) : (Node.group item).splits s = item.splits s := by
  rw [Node.splits]

theorem splits_append (n : Node) {s m r : Str} (h : (m, r) ∈ n.splits s) : s = m ++ r := by
  induction n with
  | lit text => obtain ⟨rfl, h2⟩ := mem_splits_lit.1 h; exact h2
  | star cls => exact (mem_splits_star.1 h).1
  | plus cls => exact (mem_splits_plus.1 h).1
  | lazyStar cls => exact (mem_splits_lazyStar.1 h).1
  | group item ih => rw [splits_group] at h; exact ih h

theorem mem_run_cons {n : Node} {ns : Pattern} {s : Str} {x : Match} :
    x ∈ run (n :: ns) s ↔ ∃ m r y, (m, r) ∈ n.splits s ∧ y ∈ run ns r ∧
      x = ⟨m ++ y.whole, if n.isGroup then m :: y.groups else y.groups, y.rest⟩ := by
  simp only [run, List.mem_flatMap, List.mem_map, Prod.exists]
  constructor
  · rintro ⟨m, r, h1, y, h2, rfl⟩; exact ⟨m, r, y, h1, h2, rfl⟩
  · rintro ⟨m, r, y, h1, h2, rfl⟩; exact ⟨m, r, h1, y, h2, rfl⟩

theorem mem_run_nil {s : Str} {x : Match} : x ∈ run [] s ↔ x = ⟨[], [], s⟩ := by
  simp [run]

/-- A match at the start of a text splits the text. -/
theorem run_append (re : Pattern) {s : Str} {x : Match} (h : x ∈ run re s) :
    s = x.whole ++ x.rest := by
  induction re generalizing s x with
  | nil => rw [mem_run_nil.1 h]; rfl
  | cons n ns ih =>
    obtain ⟨m, r, y, h1, h2, rfl⟩ := mem_run_cons.1 h
    simp only [List.append_assoc]
    rw [← ih h2]; exact splits_append n h1

theorem search_of_head {re : Pattern} {s : Str} {m : Match}
    (h : (run re s).head? = some m) : search re s = some (0, m) := by
  cases s with
  | nil => simp [search, h]
  | cons c s => simp [search, h]

/-- A match found by the search is the first match at its position. -/
theorem search_some {re : Pattern} {s : Str} {k : Nat} {m : Match}
    (h : search re s = some (k, m)) :
    ∃ a t, s = a ++ t ∧ a.length = k ∧ (run re t).head? = some m := by
  induction s generalizing k with
  | nil =>
    simp only [search, Option.map_eq_some', Prod.mk.injEq] at h
    obtain ⟨x, hx, rfl, rfl⟩ := h
    exact ⟨[], [], rfl, rfl, hx⟩
  | cons c s ih =>
    unfold search at h
    cases hh : (run re (c :: s)).head? with
    | some x =>
      rw [hh] at h
      simp only [Option.some.injEq, Prod.mk.injEq] at h
      obtain ⟨rfl, rfl⟩ := h
      exact ⟨[], c :: s, rfl, rfl, hh⟩
    | none =>
      rw [hh] at h
      simp only [Option.map_eq_some', Prod.mk.injEq, Prod.exists] at h
      obtain ⟨k1, m1, h1, rfl, rfl⟩ := h
      obtain ⟨a, t, rfl, rfl, ht⟩ := ih h1
      exact ⟨c :: a, t, rfl, rfl, ht⟩

/-- The search fails when no position of the text has a match. -/
theorem search_eq_none {re : Pattern} {s : Str}
    (h : ∀ a t, s = a ++ t → run re t = []) : search re s = none := by
  induction s with
  | nil => simp [search, h [] [] rfl]
  | cons c s ih =>
    unfold search
    rw [h [] (c :: s) rfl]
    simp only [List.head?_nil, Option.map_eq_none']
    exact ih (fun a t hs => h (c :: a) t (by rw [hs]; rfl))

/-- The search skips a part of the text in which no match starts. -/
theorem search_skip {re : Pattern} (a s : Str)
    (h : ∀ a1 a2, a = a1 ++ a2 → a2 ≠ [] → run re (a2 ++ s) = []) :
    search re (a ++ s) = (search re s).map fun km => (km.1 + a.length, km.2) := by
  induction a with
  | nil => simp
  | cons c a ih =>
    have h0 := h [] (c :: a) rfl (by simp)
    have ih1 := ih (fun a1 a2 ha ha2 => h (c :: a1) a2 (by rw [ha]; rfl) ha2)
    simp only [List.cons_append] at h0 ⊢
    rw [search, h0]
    simp only [List.head?_nil, ih1, Option.map_map, List.length_cons]
    rfl

theorem nonEmpty_lit_cons (c : Char) (text : Str) (ns : Pattern) :
    NonEmpty (Node.lit (c :: text) :: ns) := by
  intro s x hx
  obtain ⟨m, r, y, h1, -, rfl⟩ := mem_run_cons.1 hx
  obtain ⟨rfl, -⟩ := mem_splits_lit.1 h1
  simp

theorem search_rest_length {re : Pattern} (hne : NonEmpty re) {s : Str} {k : Nat} {m : Match}
    (h : search re s = some (k, m)) : m.rest.length < s.length := by
  obtain ⟨a, t, rfl, -, ht⟩ := search_some h
  have hm := List.mem_of_mem_head? ht
  have h1 := run_append re hm
  have h2 := hne t m hm
  have h3 : 0 < m.whole.length := List.length_pos.2 h2
  rw [h1]
  simp only [List.length_append]
  omega

theorem findAllLoop_succ {re : Pattern} (hne : NonEmpty re) (n : Nat) (f : Bool) (s : Str) :
    findAllLoop re (n + 1) f s =
      match search re s with
      | none => []
      | some (_, m) => (m.whole :: m.groups) :: findAllLoop re n true m.rest := by
  rw [findAllLoop]
  cases h : search re s with
  | none => rfl
  | some km =>
    obtain ⟨k, m⟩ := km
    obtain ⟨a, t, -, -, ht⟩ := search_some h
    have h2 := hne t m (List.mem_of_mem_head? ht)
    simp only
    split
    · next hw => exact absurd hw h2
    · rfl

/-- The bound on the number of searches is never reached. -/
theorem findAllLoop_fuel {re : Pattern} (hne : NonEmpty re) (n1 n2 : Nat) (f1 f2 : Bool)
    (s : Str) (h1 : s.length < n1) (h2 : s.length < n2) :
    findAllLoop re n1 f1 s = findAllLoop re n2 f2 s := by
  induction n1 generalizing n2 f1 f2 s with
  | zero => omega
  | succ n1 ih =>
    cases n2 with
    | zero => omega
    | succ n2 =>
      rw [findAllLoop_succ hne, findAllLoop_succ hne]
      cases h : search re s with
      | none => rfl
      | some km =>
        obtain ⟨k, m⟩ := km
        have := search_rest_length hne h
        simp only
        rw [ih n2 true true m.rest (by omega) (by omega)]

/-- The bound on the number of searches is never reached, whatever the
pattern: the result is the same for every bound above the length of the
text. -/
theorem findAllLoop_fuel_any (re : Pattern) (n1 n2 : Nat) (f : Bool) (s : Str)
    (h1 : s.length < n1) (h2 : s.length < n2) :
    findAllLoop re n1 f s = findAllLoop re n2 f s := by
  induction n1 generalizing n2 f s with
  | zero => omega
  | succ n1 ih =>
    cases n2 with
    | zero => omega
    | succ n2 =>
      rw [findAllLoop, findAllLoop]
      cases h : search re s with
      | none => rfl
      | some km =>
        obtain ⟨k, m⟩ := km
        obtain ⟨a, t, hs, hk, ht⟩ := search_some h
        have hr := run_append re (List.mem_of_mem_head? ht)
        simp only
        split
        · have hnext : (match s.drop k with
              | [] => []
              | _ :: t => findAllLoop re n1 false t) =
              (match s.drop k with
              | [] => []
              | _ :: t => findAllLoop re n2 false t) := by
            cases hd : s.drop k with
            | nil => rfl
            | cons c t2 =>
              have hlen := congrArg List.length hd
              simp only [List.length_drop, List.length_cons] at hlen
              exact ih n2 false t2 (by omega) (by omega)
          rw [hnext]
        · next c w hw =>
          have hlen : m.rest.length < s.length := by
            rw [hs, hr, hw]
            simp only [List.length_append, List.length_cons]
            omega
          rw [ih n2 true m.rest (by omega) (by omega)]

theorem findAll_none {re : Pattern} {s : Str} (h : search re s = none) :
    FindAllStringSubmatch re s = [] := by
  simp [FindAllStringSubmatch, findAllLoop, h]

theorem findAll_some {re : Pattern} (hne : NonEmpty re) {s : Str} {k : Nat} {m : Match}
    (h : search re s = some (k, m)) :
    FindAllStringSubmatch re s = (m.whole :: m.groups) :: FindAllStringSubmatch re m.rest := by
  unfold FindAllStringSubmatch
  rw [findAllLoop_succ hne, h]
  simp only
  have := search_rest_length hne h
  rw [findAllLoop_fuel hne s.length (m.rest.length + 1) true false m.rest (by omega) (by omega)]

theorem head_flatMap_some {α β : Type} {l : List α} {f : α → List β} {b : β}
    (h : (l.flatMap f).head? = some b) : ∃ a ∈ l, (f a).head? = some b := by
  induction l with
  | nil => simp at h
  | cons a l ih =>
    simp only [List.flatMap_cons, List.head?_append] at h
    cases hh : (f a).head? with
    | some x =>
      rw [hh] at h
      simp only [Option.or_some, Option.some.injEq] at h
      exact ⟨a, List.mem_cons_self _ _, by rw [hh, h]⟩
    | none =>
      rw [hh] at h
      simp only [Option.none_or] at h
      obtain ⟨a2, h1, h2⟩ := ih h
      exact ⟨a2, List.mem_cons_of_mem _ h1, h2⟩

/-- The first way a greedy repetition matches is the longest. -/
theorem starSplits_head {cls : Char → Bool} (m r : Str) (hm : ∀ c ∈ m, cls c = true)
    (hr : ∀ c t, r = c :: t → cls c = false) :
    ∃ tl, starSplits cls (m ++ r) = (m, r) :: tl := by
  induction m with
  | nil =>
    cases r with
    | nil => exact ⟨[], rfl⟩
    | cons c t => exact ⟨[], by simp [starSplits, hr c t rfl]⟩
  | cons d m ih =>
    obtain ⟨tl, h⟩ := ih (fun c hc => hm c (List.mem_cons_of_mem _ hc))
    refine ⟨tl.map (fun mr => (d :: mr.1, mr.2)) ++ [([], d :: (m ++ r))], ?_⟩
    simp [starSplits, hm d (List.mem_cons_self _ _), h]

theorem plusSplits_head {cls : Char → Bool} (m r : Str) (hm : ∀ c ∈ m, cls c = true)
    (hne : m ≠ []) (hr : ∀ c t, r = c :: t → cls c = false) :
    ∃ tl, (Node.plus cls).splits (m ++ r) = (m, r) :: tl := by
  cases m with
  | nil => exact absurd rfl hne
  | cons d m =>
    obtain ⟨tl, h⟩ := starSplits_head m r (fun c hc => hm c (List.mem_cons_of_mem _ hc)) hr
    refine ⟨tl.map (fun mr => (d :: mr.1, mr.2)), ?_⟩
    simp [Node.splits, hm d (List.mem_cons_self _ _), h]

theorem lazySplits_head (cls : Char → Bool) (s : Str) :
    ∃ tl, lazySplits cls s = ([], s) :: tl := by
  cases s with
  | nil => exact ⟨[], rfl⟩
  | cons c s =>
    by_cases hc : cls c = true
    · exact ⟨(lazySplits cls s).map (fun mr => (c :: mr.1, mr.2)), by simp [lazySplits, hc]⟩
    · exact ⟨[], by simp [lazySplits, hc]⟩

/-- A lazy repetition followed by a continuation: the first result comes from
the shortest text after which the continuation succeeds. -/
theorem lazy_first {β : Type} {cls : Char → Bool} (m r : Str) (f : Str × Str → List β) (b : β)
    (hm : ∀ c ∈ m, cls c = true)
    (hfail : ∀ m1 m2, m = m1 ++ m2 → m2 ≠ [] → f (m1, m2 ++ r) = [])
    (hsucc : (f (m, r)).head? = some b) :
    ((lazySplits cls (m ++ r)).flatMap f).head? = some b := by
  induction m generalizing f with
  | nil =>
    obtain ⟨tl, h⟩ := lazySplits_head cls r
    simp [h, hsucc]
  | cons d m ih =>
    have h0 := hfail [] (d :: m) rfl (by simp)
    simp only [List.nil_append, List.cons_append] at h0
    have hs : lazySplits cls (d :: (m ++ r)) =
        ([], d :: (m ++ r)) :: (lazySplits cls (m ++ r)).map (fun mr => (d :: mr.1, mr.2)) := by
      simp [lazySplits, hm d (List.mem_cons_self _ _)]
    rw [List.cons_append, hs, List.flatMap_cons, h0, List.nil_append, List.flatMap_map]
    exact ih (fun p => f (d :: p.1, p.2)) (fun c hc => hm c (List.mem_cons_of_mem _ hc))
      (fun m1 m2 h1 h2 => hfail (d :: m1) m2 (by rw [h1]; rfl) h2) hsucc

theorem splits_lit_append (text r : Str) : (Node.lit text).splits (text ++ r) = [(text, r)] := by
  simp [Node.splits, Strings.hasPrefix_append]

theorem splits_lit_none {text s : Str} (h : ¬ text <+: s) : (Node.lit text).splits s = [] := by
  have : Strings.HasPrefix s text = false := by
    rw [← Bool.not_eq_true, Strings.hasPrefix_iff]; exact h
  simp [Node.splits, this]

/-- The first match of a pattern, from the first way its first item matches
and the first match of the rest after it. -/
theorem run_head_cons {n : Node} {ns : Pattern} {s m r : Str} {tl : List (Str × Str)}
    {y : Match} (h1 : n.splits s = (m, r) :: tl) (h2 : (run ns r).head? = some y) :
    (run (n :: ns) s).head? =
      some ⟨m ++ y.whole, if n.isGroup then m :: y.groups else y.groups, y.rest⟩ := by
  simp [run, h1, List.head?_map, h2]

/-- The matches of two patterns in sequence. -/
theorem run_seq (ns1 ns2 : Pattern) (s : Str) :
    run (ns1 ++ ns2) s = (run ns1 s).flatMap fun m1 =>
      (run ns2 m1.rest).map fun m2 =>
        ⟨m1.whole ++ m2.whole, m1.groups ++ m2.groups, m2.rest⟩ := by
  induction ns1 generalizing s with
  | nil => simp [run]
  | cons n ns ih =>
    simp only [List.cons_append, run, List.append_eq, ih, List.flatMap_assoc,
      List.map_flatMap, List.flatMap_map, List.map_map]
    congr 1
    funext mr
    congr 1
    funext m1
    congr 1
    funext m2
    cases n.isGroup <;> simp

end Regexp

/-! ## The card pattern -/

open Regexp

theorem cardRegex_split : cardRegex = tagRegex ++ bodyRegex :=
  (List.take_append_drop 9 cardRegex).symm

theorem tagRegex_eq : tagRegex =
    [.lit "<a".toList, .star notGt, .lit "class=\"".toList, .star notQuote,
     .lit marker, .star notQuote, .lit "\"".toList, .star notGt, .lit ">".toList] := rfl

theorem bodyRegex_eq : bodyRegex = [.group (.lazyStar anyChar), .lit "</a>".toList] := rfl

theorem all_notGt {u : Str} : (∀ c ∈ u, notGt c = true) ↔ '>' ∉ u := by
  simp only [notGt, bne_iff_ne, ne_eq]
  exact ⟨fun h hm => h _ hm rfl, fun h c hc heq => h (heq ▸ hc)⟩

theorem all_notQuote {u : Str} : (∀ c ∈ u, notQuote c = true) ↔ dq ∉ u := by
  simp only [notQuote, bne_iff_ne, ne_eq]
  exact ⟨fun h hm => h _ hm rfl, fun h c hc heq => h (heq ▸ hc)⟩

theorem all_notLt {u : Str} : (∀ c ∈ u, notLt c = true) ↔ '<' ∉ u := by
  simp only [notLt, bne_iff_ne, ne_eq]
  exact ⟨fun h hm => h _ hm rfl, fun h c hc heq => h (heq ▸ hc)⟩

/-- A match of the opening tag pattern has the shape of the pattern. -/
theorem run_tagRegex_sound {s : Str} {x : Match} (hx : x ∈ run tagRegex s) :
    ∃ u v w z, '>' ∉ u ∧ dq ∉ v ∧ dq ∉ w ∧ '>' ∉ z ∧
      s = "<a".toList ++ (u ++ ("class=\"".toList ++ (v ++ (marker ++ (w ++ ("\"".toList ++
        (z ++ (">".toList ++ x.rest)))))))) ∧ x.groups = [] := by
  rw [tagRegex_eq] at hx
  obtain ⟨m1, r1, y1, h1, hy1, rfl⟩ := mem_run_cons.1 hx
  obtain ⟨rfl, rfl⟩ := mem_splits_lit.1 h1
  obtain ⟨u, r2, y2, h2, hy2, rfl⟩ := mem_run_cons.1 hy1
  obtain ⟨rfl, hu⟩ := mem_splits_star.1 h2
  obtain ⟨m3, r3, y3, h3, hy3, rfl⟩ := mem_run_cons.1 hy2
  obtain ⟨rfl, rfl⟩ := mem_splits_lit.1 h3
  obtain ⟨v, r4, y4, h4, hy4, rfl⟩ := mem_run_cons.1 hy3
  obtain ⟨rfl, hv⟩ := mem_splits_star.1 h4
  obtain ⟨m5, r5, y5, h5, hy5, rfl⟩ := mem_run_cons.1 hy4
  obtain ⟨rfl, rfl⟩ := mem_splits_lit.1 h5
  obtain ⟨w, r6, y6, h6, hy6, rfl⟩ := mem_run_cons.1 hy5
  obtain ⟨rfl, hw⟩ := mem_splits_star.1 h6
  obtain ⟨m7, r7, y7, h7, hy7, rfl⟩ := mem_run_cons.1 hy6
  obtain ⟨rfl, rfl⟩ := mem_splits_lit.1 h7
  obtain ⟨z, r8, y8, h8, hy8, rfl⟩ := mem_run_cons.1 hy7
  obtain ⟨rfl, hz⟩ := mem_splits_star.1 h8
  obtain ⟨m9, r9, y9, h9, hy9, rfl⟩ := mem_run_cons.1 hy8
  obtain ⟨rfl, rfl⟩ := mem_splits_lit.1 h9
  rw [mem_run_nil.1 hy9]
  exact ⟨u, v, w, z, all_notGt.1 hu, all_notQuote.1 hv, all_notQuote.1 hw, all_notGt.1 hz,
    rfl, rfl⟩

/-- A text of the shape of the opening tag pattern has a match of it. -/
theorem run_tagRegex_complete {u v w z r : Str} (hu : '>' ∉ u) (hv : dq ∉ v) (hw : dq ∉ w)
    (hz : '>' ∉ z) :
    ∃ x, x ∈ run tagRegex ("<a".toList ++ (u ++ ("class=\"".toList ++ (v ++ (marker ++ (w ++
      ("\"".toList ++ (z ++ (">".toList ++ r))))))))) ∧ x.rest = r ∧ x.groups = [] := by
  rw [tagRegex_eq]
  refine ⟨_, mem_run_cons.2 ⟨_, _, _, mem_splits_lit.2 ⟨rfl, rfl⟩,
    mem_run_cons.2 ⟨_, _, _, mem_splits_star.2 ⟨rfl, all_notGt.2 hu⟩,
    mem_run_cons.2 ⟨_, _, _, mem_splits_lit.2 ⟨rfl, rfl⟩,
    mem_run_cons.2 ⟨_, _, _, mem_splits_star.2 ⟨rfl, all_notQuote.2 hv⟩,
    mem_run_cons.2 ⟨_, _, _, mem_splits_lit.2 ⟨rfl, rfl⟩,
    mem_run_cons.2 ⟨_, _, _, mem_splits_star.2 ⟨rfl, all_notQuote.2 hw⟩,
    mem_run_cons.2 ⟨_, _, _, mem_splits_lit.2 ⟨rfl, rfl⟩,
    mem_run_cons.2 ⟨_, _, _, mem_splits_star.2 ⟨rfl, all_notGt.2 hz⟩,
    mem_run_cons.2 ⟨_, _, _, mem_splits_lit.2 ⟨rfl, rfl⟩,
    mem_run_nil.2 rfl, rfl⟩, rfl⟩, rfl⟩, rfl⟩, rfl⟩, rfl⟩, rfl⟩, rfl⟩, rfl⟩, rfl, rfl⟩

/-- A match of the content part has the shape of the pattern. -/
theorem run_bodyRegex_sound {s : Str} {x : Match} (hx : x ∈ run bodyRegex s) :
    ∃ c, s = c ++ ("</a>".toList ++ x.rest) ∧ x.groups = [c] := by
  rw [bodyRegex_eq] at hx
  obtain ⟨c, r1, y1, h1, hy1, rfl⟩ := mem_run_cons.1 hx
  rw [splits_group] at h1
  obtain ⟨rfl, -⟩ := mem_splits_lazyStar.1 h1
  obtain ⟨m2, r2, y2, h2, hy2, rfl⟩ := mem_run_cons.1 hy1
  obtain ⟨rfl, rfl⟩ := mem_splits_lit.1 h2
  rw [mem_run_nil.1 hy2]
  exact ⟨c, rfl, rfl⟩

/-- The first match of the content part ends at the first `</a>`. -/
theorem bodyRegex_head (content rest : Str) (h : ¬ "</a>".toList <:+: content) :
    (run bodyRegex (content ++ ("</a>".toList ++ rest))).head? =
      some ⟨content ++ "</a>".toList, [content], rest⟩ := by
  rw [bodyRegex_eq, run, splits_group, Node.splits]
  apply lazy_first
  · intro c _; rfl
  · intro m1 m2 hm hm2
    have hno : ¬ "</a>".toList <+: m2 ++ ("</a>".toList ++ rest) := by
      intro hp
      have hp2 : ('<' :: "/a>".toList) <+: m2 ++ ('<' :: "/a>".toList) ++ rest := by
        simpa using hp
      have := Strings.no_straddle (by decide) hm2 hp2
      exact h (hm ▸ this.isInfix.trans (List.suffix_append m1 m2).isInfix)
    simp only [run, splits_lit_none hno, List.flatMap_nil, List.map_nil]
  · simp only [run, splits_lit_append, List.flatMap_cons, List.flatMap_nil, List.map_cons,
      List.map_nil, List.append_nil, Node.isGroup, List.head?_cons, if_true, Bool.false_eq_true,
      if_false]

theorem dq_not_mem_marker : dq ∉ marker := by decide

/-- Where the opening tag of a match ends.  The text is `y`, an opening tag
and `rest`; the marker does not occur before the value of the class
attribute, and no class attribute starts after the value.  Then every match
of the opening tag pattern at the start of the text ends where the tag
ends. -/
theorem tag_end (y t1 value t4 rest : Str) (hq : dq ∉ value) (ht4 : '>' ∉ t4)
    (hm : ¬ marker <:+: y ++ ("<a".toList ++ (t1 ++ "class=\"".toList)))
    (hc : ¬ "class=\"".toList <:+: value ++ ("\"".toList ++ t4))
    {x : Match} (hx : x ∈ run tagRegex (y ++ (openTag t1 value t4 ++ rest))) :
    x.rest = rest := by
  obtain ⟨u, v, w, z, hu, hv, hw, hz, hs, -⟩ := run_tagRegex_sound hx
  have hV : dq ∉ v ++ (marker ++ w) := by
    simp only [List.mem_append, not_or]
    exact ⟨hv, dq_not_mem_marker, hw⟩
  have hP0 : y ++ ("<a".toList ++ (t1 ++ "class=\"".toList)) =
      (y ++ ("<a".toList ++ (t1 ++ "class=".toList))) ++ [dq] := by
    simp [dq]
  have hcl : "class=\"".toList = "class=".toList ++ [dq] := rfl
  have hq6 : dq ∉ "class=".toList := by decide
  have key : (y ++ ("<a".toList ++ (t1 ++ "class=".toList))) ++
        dq :: (value ++ dq :: (t4 ++ '>' :: rest)) =
      ("<a".toList ++ (u ++ "class=".toList)) ++
        dq :: ((v ++ (marker ++ w)) ++ dq :: (z ++ '>' :: x.rest)) := by
    have := hs
    simp only [openTag] at this
    simpa [dq] using this
  have hsuf : "class=".toList <:+ "<a".toList ++ (u ++ "class=".toList) :=
    ⟨"<a".toList ++ u, by simp⟩
  have hgt : '>' ∉ "<a".toList ++ (u ++ "class=".toList) := by
    simp only [List.mem_append, not_or]
    exact ⟨by decide, hu, by decide⟩
  rcases Strings.split_cases key with ⟨-, h2⟩ | ⟨d, h1, h2⟩ | ⟨d, h1, h2⟩
  · obtain ⟨-, h3⟩ := Strings.split_first hq hV h2
    exact (Strings.split_first ht4 hz h3).2.symm
  · exfalso
    rcases Strings.split_cases h2 with ⟨h3, -⟩ | ⟨e, h3, h4⟩ | ⟨e, h3, -⟩
    · subst h3
      rw [h1] at hsuf
      obtain ⟨e, he⟩ := Strings.suffix_after hq6 hsuf
      apply hc
      refine ⟨e, t4, ?_⟩
      rw [← he, hcl]
      simp [dq]
    · subst h3
      rw [h1] at hsuf hgt
      have hsuf2 : "class=".toList <:+
          (y ++ ("<a".toList ++ (t1 ++ "class=".toList)) ++ dq :: value) ++ dq :: e := by
        simpa using hsuf
      obtain ⟨e1, he1⟩ := Strings.suffix_after hq6 hsuf2
      have hge : '>' ∉ e ++ [dq] := by
        simp only [List.mem_append, not_or, List.mem_singleton] at hgt ⊢
        refine ⟨fun hmem => hgt.2 (by simp [hmem]), by decide⟩
      have h5 : (e ++ [dq]) ++ ((v ++ (marker ++ w)) ++ dq :: (z ++ '>' :: x.rest)) =
          t4 ++ '>' :: rest := by
        rw [h4]; simp
      obtain ⟨f, hf⟩ := Strings.prefix_before hge h5
      apply hc
      refine ⟨value ++ "\"".toList ++ e1, f, ?_⟩
      rw [← hf, ← he1, hcl]
      simp [dq]
    · exact hq (h3 ▸ (by simp : dq ∈ d ++ dq :: e))
  · exfalso
    rcases Strings.split_cases h2 with ⟨h3, -⟩ | ⟨e, h3, -⟩ | ⟨e, h3, -⟩
    · apply hm
      rw [hP0, h1, ← h3]
      exact ⟨"<a".toList ++ (u ++ "class=".toList) ++ dq :: v, w ++ [dq], by simp⟩
    · apply hm
      rw [hP0, h1, h3]
      exact ⟨"<a".toList ++ (u ++ "class=".toList) ++ dq :: v, w ++ dq :: e ++ [dq], by simp⟩
    · exact hV (h3 ▸ (by simp : dq ∈ d ++ dq :: e))

/-- A match of the card pattern has the shape of the pattern. -/
theorem run_cardRegex_sound {s : Str} {x : Match} (hx : x ∈ run cardRegex s) :
    ∃ u v w z c, '>' ∉ u ∧ dq ∉ v ∧ dq ∉ w ∧ '>' ∉ z ∧
      s = "<a".toList ++ (u ++ ("class=\"".toList ++ (v ++ (marker ++ (w ++ ("\"".toList ++
        (z ++ (">".toList ++ (c ++ ("</a>".toList ++ x.rest)))))))))) ∧ x.groups = [c] := by
  rw [cardRegex_split, run_seq] at hx
  obtain ⟨m1, hm1, hx⟩ := List.mem_flatMap.1 hx
  obtain ⟨m2, hm2, rfl⟩ := List.mem_map.1 hx
  obtain ⟨u, v, w, z, hu, hv, hw, hz, hs, hg⟩ := run_tagRegex_sound hm1
  obtain ⟨c, hc, hg2⟩ := run_bodyRegex_sound hm2
  refine ⟨u, v, w, z, c, hu, hv, hw, hz, ?_, ?_⟩
  · rw [hs, hc]
  · simp [hg, hg2]

theorem nonEmpty_cardRegex : NonEmpty cardRegex :=
  nonEmpty_lit_cons '<' ['a'] _

/-- The first match of the card pattern at a position up to the start of a
card fragment captures the content of the fragment and ends with it. -/
theorem card_head (y t1 value t4 content rest : Str) (hq : dq ∉ value) (ht4 : '>' ∉ t4)
    (hm : ¬ marker <:+: y ++ ("<a".toList ++ (t1 ++ "class=\"".toList)))
    (hc : ¬ "class=\"".toList <:+: value ++ ("\"".toList ++ t4))
    (hcontent : ¬ "</a>".toList <:+: content) {m : Match}
    (h : (run cardRegex (y ++ (openTag t1 value t4 ++
      (content ++ ("</a>".toList ++ rest))))).head? = some m) :
    m.groups = [content] ∧ m.rest = rest := by
  rw [cardRegex_split, run_seq] at h
  obtain ⟨m1, hm1, hh⟩ := head_flatMap_some h
  obtain ⟨-, -, -, -, -, -, -, -, -, hg⟩ := run_tagRegex_sound hm1
  rw [tag_end y t1 value t4 _ hq ht4 hm hc hm1, List.head?_map,
    bodyRegex_head content rest hcontent] at hh
  simp only [Option.map_some', Option.some.injEq] at hh
  subst hh
  simp [hg]

/-- The card pattern matches at the start of a card fragment. -/
theorem card_exists (t1 value t4 content rest : Str) (ht1 : '>' ∉ t1) (ht4 : '>' ∉ t4)
    (hq : dq ∉ value) (hmk : marker <:+: value) (hcontent : ¬ "</a>".toList <:+: content) :
    ∃ m, (run cardRegex (openTag t1 value t4 ++
      (content ++ ("</a>".toList ++ rest)))).head? = some m := by
  obtain ⟨v, w, rfl⟩ := hmk
  have hv : dq ∉ v := fun h => hq (by simp [h])
  have hw : dq ∉ w := fun h => hq (by simp [h])
  obtain ⟨x, hx, hr, -⟩ := run_tagRegex_complete (r := content ++ ("</a>".toList ++ rest))
    ht1 hv hw ht4
  have hb := List.mem_of_mem_head? (bodyRegex_head content rest hcontent)
  have hmem : (⟨x.whole ++ (content ++ "</a>".toList), x.groups ++ [content], rest⟩ : Match) ∈
      run cardRegex (openTag t1 (v ++ marker ++ w) t4 ++ (content ++ ("</a>".toList ++ rest))) := by
    rw [cardRegex_split, run_seq]
    refine List.mem_flatMap.2 ⟨x, ?_, ?_⟩
    · simpa only [openTag, List.append_assoc] using hx
    · rw [hr]
      exact List.mem_map.2 ⟨_, hb, rfl⟩
  cases hh : (run cardRegex (openTag t1 (v ++ marker ++ w) t4 ++
      (content ++ ("</a>".toList ++ rest)))).head? with
  | some m => exact ⟨m, rfl⟩
  | none =>
    rw [List.head?_eq_none_iff] at hh
    rw [hh] at hmem
    exact absurd hmem (List.not_mem_nil _)

/-- The search for the card pattern in a text that holds a card fragment,
with no marker before the fragment: the match captures the content of the
fragment and ends with the fragment. -/
theorem search_card (x t1 value t4 content rest : Str) (ht1 : '>' ∉ t1) (ht4 : '>' ∉ t4)
    (hq : dq ∉ value) (hmk : marker <:+: value)
    (hm : ¬ marker <:+: x ++ ("<a".toList ++ (t1 ++ "class=\"".toList)))
    (hc : ¬ "class=\"".toList <:+: value ++ ("\"".toList ++ t4))
    (hcontent : ¬ "</a>".toList <:+: content) :
    ∃ k w, search cardRegex (x ++ (openTag t1 value t4 ++
      (content ++ ("</a>".toList ++ rest)))) = some (k, ⟨w, [content], rest⟩) := by
  induction x with
  | nil =>
    obtain ⟨m, h⟩ := card_exists t1 value t4 content rest ht1 ht4 hq hmk hcontent
    obtain ⟨h1, h2⟩ := card_head [] t1 value t4 content rest hq ht4 hm hc hcontent h
    refine ⟨0, m.whole, ?_⟩
    rw [List.nil_append, search_of_head h]
    cases m
    simp only at h1 h2
    rw [h1, h2]
  | cons c x ih =>
    have hm2 : ¬ marker <:+: x ++ ("<a".toList ++ (t1 ++ "class=\"".toList)) :=
      fun h => hm (h.trans (List.suffix_cons c _).isInfix)
    obtain ⟨k, w, hk⟩ := ih hm2
    cases hh : (run cardRegex (c :: x ++ (openTag t1 value t4 ++
        (content ++ ("</a>".toList ++ rest))))).head? with
    | some m =>
      obtain ⟨h1, h2⟩ := card_head (c :: x) t1 value t4 content rest hq ht4 hm hc hcontent hh
      refine ⟨0, m.whole, ?_⟩
      rw [search_of_head hh]
      cases m
      simp only at h1 h2
      rw [h1, h2]
    | none =>
      refine ⟨k + 1, w, ?_⟩
      rw [List.cons_append, search, ← List.cons_append, hh]
      simp only [hk, Option.map_some']

/-- The card pattern has no match in a text without the marker. -/
theorem search_card_none {s : Str} (h : ¬ marker <:+: s) : search cardRegex s = none := by
  apply search_eq_none
  intro a t hs
  cases hr : run cardRegex t with
  | nil => rfl
  | cons x l =>
    exfalso
    have hx : x ∈ run cardRegex t := by rw [hr]; exact List.mem_cons_self _ _
    obtain ⟨u, v, w, z, c, -, -, -, -, ht, -⟩ := run_cardRegex_sound hx
    apply h
    rw [hs, ht]
    exact ⟨a ++ ("<a".toList ++ (u ++ ("class=\"".toList ++ v))),
      w ++ ("\"".toList ++ (z ++ (">".toList ++ (c ++ ("</a>".toList ++ x.rest))))), by
      simp only [List.append_assoc]⟩

/-- One step of `parsePollenData`: a card fragment, with no marker before
it, gives the records of its content, and the rest of the text is parsed
after it. -/
theorem parse_card_step (x t1 value t4 content rest : Str) (ht1 : '>' ∉ t1) (ht4 : '>' ∉ t4)
    (hq : dq ∉ value) (hmk : marker <:+: value)
    (hm : ¬ marker <:+: x ++ ("<a".toList ++ (t1 ++ "class=\"".toList)))
    (hc : ¬ "class=\"".toList <:+: value ++ ("\"".toList ++ t4))
    (hcontent : ¬ "</a>".toList <:+: content) :
    ∃ w, parsePollenData (x ++ (cardText t1 value t4 content ++ rest)) =
      parseCard [w, content] ++ parsePollenData rest := by
  obtain ⟨k, w, hk⟩ := search_card x t1 value t4 content rest ht1 ht4 hq hmk hm hc hcontent
  refine ⟨w, ?_⟩
  have hs : x ++ (cardText t1 value t4 content ++ rest) =
      x ++ (openTag t1 value t4 ++ (content ++ ("</a>".toList ++ rest))) := by
    simp only [cardText, List.append_assoc]
  rw [parsePollenData, parsePollenData, hs, findAll_some nonEmpty_cardRegex hk]
  simp only [List.flatMap_cons]

theorem parse_no_marker {s : Str} (h : ¬ marker <:+: s) : parsePollenData s = [] := by
  rw [parsePollenData, findAll_none (search_card_none h)]
  rfl

/-! ## The field patterns -/

theorem run_head_lit {text r : Str} {ns : Pattern} {y : Match}
    (h : (run ns r).head? = some y) :
    (run (Node.lit text :: ns) (text ++ r)).head? = some ⟨text ++ y.whole, y.groups, y.rest⟩ :=
  run_head_cons (splits_lit_append text r) h

theorem run_head_star {cls : Char → Bool} {m r : Str} {ns : Pattern} {y : Match}
    (hm : ∀ c ∈ m, cls c = true) (hr : ∀ c t, r = c :: t → cls c = false)
    (h : (run ns r).head? = some y) :
    (run (Node.star cls :: ns) (m ++ r)).head? = some ⟨m ++ y.whole, y.groups, y.rest⟩ := by
  obtain ⟨tl, htl⟩ := starSplits_head m r hm hr
  exact run_head_cons (n := Node.star cls) (by rw [Node.splits]; exact htl) h

theorem run_head_group_plus {cls : Char → Bool} {m r : Str} {ns : Pattern} {y : Match}
    (hm : ∀ c ∈ m, cls c = true) (hne : m ≠ []) (hr : ∀ c t, r = c :: t → cls c = false)
    (h : (run ns r).head? = some y) :
    (run (Node.group (Node.plus cls) :: ns) (m ++ r)).head? =
      some ⟨m ++ y.whole, m :: y.groups, y.rest⟩ := by
  obtain ⟨tl, htl⟩ := plusSplits_head m r hm hne hr
  exact run_head_cons (n := Node.group (Node.plus cls)) (by rw [splits_group]; exact htl) h

theorem run_lit_none {text s : Str} (ns : Pattern) (h : ¬ text <+: s) :
    run (Node.lit text :: ns) s = [] := by
  rw [run, splits_lit_none h]; rfl

/-- The first match of the name pattern at the start of a name field. -/
theorem nameRegex_head (attrs inner b : Str) (hattrs : '>' ∉ attrs) (hne : inner ≠ [])
    (hin : '<' ∉ inner) :
    (run nameRegex (nameField attrs inner ++ b)).head? =
      some ⟨nameField attrs inner, [inner], b⟩ := by
  have h0 : (run [] b).head? = some ⟨[], [], b⟩ := rfl
  have h1 := @run_head_lit "</div>".toList b [] _ h0
  have h2 := @run_head_group_plus notLt inner ("</div>".toList ++ b) _ _ (all_notLt.2 hin) hne
    (by intro c t hct; simp at hct; rw [← hct.1]; rfl) h1
  have h3 := @run_head_lit ">".toList _ _ _ h2
  have h4 := @run_head_star notGt attrs _ _ _ (all_notGt.2 hattrs)
    (by intro c t hct; simp at hct; rw [← hct.1]; rfl) h3
  have h5 := @run_head_lit "<div class=\"index-name\"".toList _ _ _ h4
  simp only [List.append_nil] at h5
  have hs : nameField attrs inner ++ b = "<div class=\"index-name\"".toList ++
      (attrs ++ (">".toList ++ (inner ++ ("</div>".toList ++ b)))) := by
    simp only [nameField, List.append_assoc]
  rw [hs, nameRegex, h5]
  simp only [nameField, List.append_assoc]

/-- The first match of the status pattern at the start of a status field. -/
theorem statusRegex_head (inner b : Str) (hne : inner ≠ []) (hin : '<' ∉ inner) :
    (run statusRegex (statusField inner ++ b)).head? =
      some ⟨statusField inner, [inner], b⟩ := by
  have h0 : (run [] b).head? = some ⟨[], [], b⟩ := rfl
  have h1 := @run_head_lit "</div>".toList b [] _ h0
  have h2 := @run_head_group_plus notLt inner ("</div>".toList ++ b) _ _ (all_notLt.2 hin) hne
    (by intro c t hct; simp at hct; rw [← hct.1]; rfl) h1
  have h3 := @run_head_lit "<div class=\"index-status-text\">".toList _ _ _ h2
  simp only [List.append_nil] at h3
  have hs : statusField inner ++ b = "<div class=\"index-status-text\">".toList ++
      (inner ++ ("</div>".toList ++ b)) := by
    simp only [statusField, List.append_assoc]
  rw [hs, statusRegex, h3]
  simp only [statusField, List.append_assoc]

/-- A pattern that starts with a literal text has no match in a part of the
text in which the literal does not occur, when the literal starts what
follows and its first character does not occur again in it. -/
theorem search_skip_lit (c : Char) (l : Str) (ns : Pattern) (a r : Str) (hl : c ∉ l)
    (ha : ¬ (c :: l) <:+: a) :
    search (Node.lit (c :: l) :: ns) (a ++ ((c :: l) ++ r)) =
      (search (Node.lit (c :: l) :: ns) ((c :: l) ++ r)).map fun km => (km.1 + a.length, km.2) := by
  apply search_skip
  intro a1 a2 h1 h2
  apply run_lit_none
  intro hp
  rw [← List.append_assoc] at hp
  exact ha (h1 ▸ (Strings.no_straddle hl h2 hp).isInfix.trans (List.suffix_append a1 a2).isInfix)

/-- The result of `FindStringSubmatch` of the name pattern on a content whose first name
field has the inner text `inner`. -/
theorem find_name (a attrs inner b : Str) (ha : ¬ "<div class=\"index-name\"".toList <:+: a)
    (hattrs : '>' ∉ attrs) (hne : inner ≠ []) (hin : '<' ∉ inner) :
    FindStringSubmatch nameRegex (a ++ (nameField attrs inner ++ b)) =
      [nameField attrs inner, inner] := by
  have hs : nameField attrs inner ++ b = ('<' :: "div class=\"index-name\"".toList) ++
      (attrs ++ (">".toList ++ (inner ++ ("</div>".toList ++ b)))) := by
    simp only [nameField, List.append_assoc]; rfl
  have h1 : search nameRegex (a ++ (nameField attrs inner ++ b)) =
      (search nameRegex (nameField attrs inner ++ b)).map fun km => (km.1 + a.length, km.2) := by
    rw [hs]
    exact search_skip_lit '<' "div class=\"index-name\"".toList
      [.star notGt, .lit ">".toList, .group (.plus notLt), .lit "</div>".toList] a
      (attrs ++ (">".toList ++ (inner ++ ("</div>".toList ++ b)))) (by decide) ha
  have h2 := search_of_head (nameRegex_head attrs inner b hattrs hne hin)
  rw [FindStringSubmatch, h1, h2]
  rfl

/-- The result of `FindStringSubmatch` of the status pattern on a content whose first
status field has the inner text `inner`. -/
theorem find_status (a inner b : Str) (ha : ¬ "<div class=\"index-status-text\">".toList <:+: a)
    (hne : inner ≠ []) (hin : '<' ∉ inner) :
    FindStringSubmatch statusRegex (a ++ (statusField inner ++ b)) =
      [statusField inner, inner] := by
  have hs : statusField inner ++ b = ('<' :: "div class=\"index-status-text\">".toList) ++
      (inner ++ ("</div>".toList ++ b)) := by
    simp only [statusField, List.append_assoc]; rfl
  have h1 : search statusRegex (a ++ (statusField inner ++ b)) =
      (search statusRegex (statusField inner ++ b)).map fun km => (km.1 + a.length, km.2) := by
    rw [hs]
    exact search_skip_lit '<' "div class=\"index-status-text\">".toList
      [.group (.plus notLt), .lit "</div>".toList] a
      (inner ++ ("</div>".toList ++ b)) (by decide) ha
  have h2 := search_of_head (statusRegex_head inner b hne hin)
  rw [FindStringSubmatch, h1, h2]
  rfl

/-! ## Decoding and the keywords -/

theorem replaceLoop_amp (s : Str) :
    ∀ n, s.length ≤ n → Strings.replaceLoop "&amp;".toList "&".toList n s = decodeAmp s := by
  induction s using decodeAmp.induct with
  | case1 s ih =>
    intro n hn
    cases n with
    | zero => simp at hn
    | succ n =>
      have hn2 : s.length ≤ n := by simp only [List.length_cons] at hn; omega
      rw [decodeAmp, ← ih n hn2]
      simp [Strings.replaceLoop, Strings.HasPrefix]
  | case2 c s hneg ih =>
    intro n hn
    cases n with
    | zero => simp at hn
    | succ n =>
      have hn2 : s.length ≤ n := by simp only [List.length_cons] at hn; omega
      have hp : Strings.HasPrefix (c :: s) "&amp;".toList = false := by
        rw [← Bool.not_eq_true, Strings.hasPrefix_iff]
        rintro ⟨t, ht⟩
        simp only [String.toList, List.cons_append, List.cons.injEq, List.nil_append] at ht
        exact hneg t ht.1.symm ht.2.symm
      rw [decodeAmp.eq_2 c s hneg, ← ih n hn2, Strings.replaceLoop]
      simp only [hp, Bool.false_eq_true, if_false]
  | case3 =>
    intro n _
    cases n <;> rfl

/-- The call `strings.ReplaceAll(name, "&amp;", "&")` is the one pass of the
specification. -/
theorem replaceAll_amp (s : Str) :
    Strings.ReplaceAll s "&amp;".toList "&".toList = decodeAmp s :=
  replaceLoop_amp s s.length (Nat.le_refl _)

/-- The bound on the number of steps of `replaceLoop` is never reached: the
result is the same for every bound from the length of the text on. -/
theorem replaceLoop_fuel (old new : Str) (hold : old ≠ []) (n1 n2 : Nat) (s : Str)
    (h1 : s.length ≤ n1) (h2 : s.length ≤ n2) :
    Strings.replaceLoop old new n1 s = Strings.replaceLoop old new n2 s := by
  induction n1 generalizing n2 s with
  | zero =>
    have hs : s = [] := List.length_eq_zero.1 (by omega)
    subst hs
    cases n2 <;> rfl
  | succ n1 ih =>
    cases n2 with
    | zero =>
      have hs : s = [] := List.length_eq_zero.1 (by omega)
      subst hs
      rfl
    | succ n2 =>
      cases s with
      | nil => rfl
      | cons c s =>
        have hpos : 0 < old.length := List.length_pos.2 hold
        simp only [List.length_cons] at h1 h2
        have hd : ((c :: s).drop old.length).length ≤ s.length := by
          simp only [List.length_drop, List.length_cons]
          omega
        rw [Strings.replaceLoop, Strings.replaceLoop,
          ih n2 ((c :: s).drop old.length) (by omega) (by omega),
          ih n2 s (by omega) (by omega)]

theorem decodeAmp_append_of_not_mem (k r : Str) (hk : '&' ∉ k) :
    decodeAmp (k ++ r) = k ++ decodeAmp r := by
  induction k with
  | nil => rfl
  | cons c k ih =>
    have hc : c ≠ '&' := fun h => hk (h ▸ List.mem_cons_self _ _)
    rw [List.cons_append, decodeAmp.eq_2 c (k ++ r) (fun _ h _ => hc h),
      ih (fun h => hk (List.mem_cons_of_mem _ h))]
    rfl

/-- A keyword found in the lowered text is still found after the decoding:
an occurrence of a keyword does not overlap an occurrence of `&amp;`. -/
theorem keyword_decode (k0 k1 k2 k3 : Char) (kt : Str)
    (hk : ∀ c ∈ k0 :: k1 :: k2 :: k3 :: kt, c ≠ '&' ∧ c ≠ ';') (s : Str)
    (h : (k0 :: k1 :: k2 :: k3 :: kt) <:+: Strings.ToLower s) :
    (k0 :: k1 :: k2 :: k3 :: kt) <:+: Strings.ToLower (decodeAmp s) := by
  have h0 := hk k0 (by simp)
  have h1 := hk k1 (by simp)
  have h2 := hk k2 (by simp)
  have h3 := hk k3 (by simp)
  induction s using decodeAmp.induct with
  | case1 s ih =>
    rw [decodeAmp]
    have hl : Strings.ToLower ('&' :: 'a' :: 'm' :: 'p' :: ';' :: s) =
        '&' :: 'a' :: 'm' :: 'p' :: ';' :: Strings.ToLower s := rfl
    have hl2 : Strings.ToLower ('&' :: decodeAmp s) = '&' :: Strings.ToLower (decodeAmp s) := rfl
    rw [hl] at h
    rw [hl2]
    rcases List.infix_cons_iff.1 h with h | h
    · exact absurd (List.cons_prefix_cons.1 h).1 h0.1
    rcases List.infix_cons_iff.1 h with h | h
    · simp only [List.cons_prefix_cons] at h
      exact absurd h.2.2.2.1 h3.2
    rcases List.infix_cons_iff.1 h with h | h
    · simp only [List.cons_prefix_cons] at h
      exact absurd h.2.2.1 h2.2
    rcases List.infix_cons_iff.1 h with h | h
    · simp only [List.cons_prefix_cons] at h
      exact absurd h.2.1 h1.2
    rcases List.infix_cons_iff.1 h with h | h
    · simp only [List.cons_prefix_cons] at h
      exact absurd h.1 h0.2
    exact List.infix_cons_iff.2 (Or.inr (ih h))
  | case2 c s hneg ih =>
    have hl : Strings.ToLower (c :: s) = Strings.toLowerRune c :: Strings.ToLower s := rfl
    rcases List.infix_cons_iff.1 (hl ▸ h) with hp | hi
    · obtain ⟨t, ht⟩ := hp
      rw [← hl] at ht
      obtain ⟨l1, l2, hs, hl1, -⟩ := List.map_eq_append_iff.1 ht.symm
      have hamp : '&' ∉ l1 := by
        intro hmem
        have : Strings.toLowerRune '&' ∈ l1.map Strings.toLowerRune := List.mem_map_of_mem _ hmem
        rw [hl1] at this
        exact (hk _ this).1 rfl
      rw [hs, decodeAmp_append_of_not_mem l1 l2 hamp]
      refine ⟨[], Strings.ToLower (decodeAmp l2), ?_⟩
      simp only [Strings.ToLower, List.map_append, hl1, List.nil_append]
    · rw [decodeAmp.eq_2 c s hneg]
      exact List.infix_cons_iff.2 (Or.inr (ih hi))
  | case3 =>
    exact absurd (List.eq_nil_of_infix_nil h) (by simp)

/-- A name with a keyword keeps it when `&amp;` is decoded. -/
theorem hasKeyword_replaceAll (name : Str) (h : hasKeyword name = true) :
    hasKeyword (Strings.ReplaceAll name "&amp;".toList "&".toList) = true := by
  rw [replaceAll_amp]
  simp only [hasKeyword, Bool.or_eq_true, Strings.contains_iff] at h ⊢
  rcases h with (h | h) | h
  · exact Or.inl (Or.inl (keyword_decode 'p' 'o' 'l' 'l' "en".toList (by decide) name h))
  · exact Or.inl (Or.inr (keyword_decode 'm' 'o' 'l' 'd' [] (by decide) name h))
  · exact Or.inr (keyword_decode 'd' 'u' 's' 't' [] (by decide) name h)

/-- The body of the loop on a card whose content has a first name field and
a first status field. -/
theorem parseCard_fields (w content wn inner ws status : Str)
    (hn : FindStringSubmatch nameRegex content = [wn, inner])
    (hs : FindStringSubmatch statusRegex content = [ws, status]) :
    parseCard [w, content] =
      if hasKeyword (Strings.ReplaceAll (Strings.TrimSpace inner) "&amp;".toList "&".toList) then
        [⟨Strings.ReplaceAll (Strings.TrimSpace inner) "&amp;".toList "&".toList,
          Strings.TrimSpace status⟩]
      else [] := by
  simp [parseCard, hn, hs, hasKeyword]

/-! ## One card -/

/-- The result of `parsePollenData` on a text that starts with a well-formed card: the
record of the card when its name has a keyword, then the records of the rest
of the text. -/
theorem parse_wellFormed (c : Card) (rest : Str) (h : c.wellFormed = true) :
    parsePollenData (c.text ++ rest) =
      (if hasKeyword c.record.Name = true then [c.record] else []) ++ parsePollenData rest := by
  simp only [Card.wellFormed, Bool.and_eq_true, decide_eq_true_eq, Bool.not_eq_true',
    Strings.contains_eq_false_iff, Strings.contains_iff, List.append_assoc] at h
  obtain ⟨⟨⟨⟨⟨⟨⟨⟨⟨⟨⟨⟨⟨⟨h1, h2⟩, h3⟩, h4⟩, h5⟩, h6⟩, h7⟩, h8⟩, h9⟩, h10⟩, h11⟩, h12⟩, h13⟩, h14⟩,
    h15⟩ := h
  obtain ⟨w, hw⟩ := parse_card_step c.lead c.before c.value c.after c.content rest
    h1 h2 h3 h4 h5 h6 h7
  have hn : FindStringSubmatch nameRegex c.content = [nameField c.attrs c.inner, c.inner] := by
    rw [Card.content, List.append_assoc]
    exact find_name c.a c.attrs c.inner c.b h9 h10 h11 h12
  have hs : FindStringSubmatch statusRegex c.content =
      [statusField c.status, c.status] := by
    rw [h8]
    exact find_status c.a2 c.status c.b2 h13 h14 h15
  rw [Card.text, List.append_assoc, hw, parseCard_fields w c.content _ _ _ _ hn hs]
  simp only [Card.record, replaceAll_amp]

/-! ## What a match tells about the text -/

theorem run_nameRegex_sound {s : Str} {x : Match} (hx : x ∈ run nameRegex s) :
    ∃ attrs inner, '>' ∉ attrs ∧ inner ≠ [] ∧ '<' ∉ inner ∧
      s = nameField attrs inner ++ x.rest ∧ x.groups = [inner] := by
  rw [nameRegex] at hx
  obtain ⟨m1, r1, y1, h1, hy1, rfl⟩ := mem_run_cons.1 hx
  obtain ⟨rfl, rfl⟩ := mem_splits_lit.1 h1
  obtain ⟨attrs, r2, y2, h2, hy2, rfl⟩ := mem_run_cons.1 hy1
  obtain ⟨rfl, hattrs⟩ := mem_splits_star.1 h2
  obtain ⟨m3, r3, y3, h3, hy3, rfl⟩ := mem_run_cons.1 hy2
  obtain ⟨rfl, rfl⟩ := mem_splits_lit.1 h3
  obtain ⟨inner, r4, y4, h4, hy4, rfl⟩ := mem_run_cons.1 hy3
  rw [splits_group] at h4
  obtain ⟨rfl, hne, hin⟩ := mem_splits_plus.1 h4
  obtain ⟨m5, r5, y5, h5, hy5, rfl⟩ := mem_run_cons.1 hy4
  obtain ⟨rfl, rfl⟩ := mem_splits_lit.1 h5
  rw [mem_run_nil.1 hy5]
  refine ⟨attrs, inner, all_notGt.1 hattrs, hne, all_notLt.1 hin, ?_, rfl⟩
  simp only [nameField, List.append_assoc]

theorem run_statusRegex_sound {s : Str} {x : Match} (hx : x ∈ run statusRegex s) :
    ∃ inner, inner ≠ [] ∧ '<' ∉ inner ∧
      s = statusField inner ++ x.rest ∧ x.groups = [inner] := by
  rw [statusRegex] at hx
  obtain ⟨m1, r1, y1, h1, hy1, rfl⟩ := mem_run_cons.1 hx
  obtain ⟨rfl, rfl⟩ := mem_splits_lit.1 h1
  obtain ⟨inner, r4, y4, h4, hy4, rfl⟩ := mem_run_cons.1 hy1
  rw [splits_group] at h4
  obtain ⟨rfl, hne, hin⟩ := mem_splits_plus.1 h4
  obtain ⟨m5, r5, y5, h5, hy5, rfl⟩ := mem_run_cons.1 hy4
  obtain ⟨rfl, rfl⟩ := mem_splits_lit.1 h5
  rw [mem_run_nil.1 hy5]
  refine ⟨inner, hne, all_notLt.1 hin, ?_, rfl⟩
  simp only [statusField, List.append_assoc]

/-- The result of `FindStringSubmatch` of the name pattern: nothing, or the text of a name
field of the content and its inner text. -/
theorem find_name_cases (content : Str) :
    FindStringSubmatch nameRegex content = [] ∨
      ∃ wn inner, FindStringSubmatch nameRegex content = [wn, inner] ∧
        NameFieldOf content inner := by
  rw [FindStringSubmatch]
  cases h : search nameRegex content with
  | none => exact Or.inl rfl
  | some km =>
    obtain ⟨k, m⟩ := km
    right
    obtain ⟨a, t, rfl, -, ht⟩ := search_some h
    obtain ⟨attrs, inner, h1, h2, h3, h4, h5⟩ := run_nameRegex_sound (List.mem_of_mem_head? ht)
    refine ⟨m.whole, inner, by simp only [h5], a, attrs, m.rest, ?_, h1, h2, h3⟩
    rw [h4, List.append_assoc]

/-- The result of `FindStringSubmatch` of the status pattern: nothing, or the text of a
status field of the content and its inner text. -/
theorem find_status_cases (content : Str) :
    FindStringSubmatch statusRegex content = [] ∨
      ∃ ws inner, FindStringSubmatch statusRegex content = [ws, inner] ∧
        StatusFieldOf content inner := by
  rw [FindStringSubmatch]
  cases h : search statusRegex content with
  | none => exact Or.inl rfl
  | some km =>
    obtain ⟨k, m⟩ := km
    right
    obtain ⟨a, t, rfl, -, ht⟩ := search_some h
    obtain ⟨inner, h2, h3, h4, h5⟩ := run_statusRegex_sound (List.mem_of_mem_head? ht)
    refine ⟨m.whole, inner, by simp only [h5], a, m.rest, ?_, h2, h3⟩
    rw [h4, List.append_assoc]

/-- The search for the card pattern fails in a text without a match of it. -/
theorem search_card_of_not_match {html : Str} (h : ¬ CardMatch html) :
    search cardRegex html = none := by
  apply search_eq_none
  intro a t hs
  cases hr : run cardRegex t with
  | nil => rfl
  | cons x l =>
    exfalso
    have hx : x ∈ run cardRegex t := by rw [hr]; exact List.mem_cons_self _ _
    obtain ⟨u, v, w, z, c, hu, hv, hw, hz, ht, -⟩ := run_cardRegex_sound hx
    apply h
    refine ⟨c, a, u, v, w, z, x.rest, ?_, hu, hv, hw, hz⟩
    rw [hs, ht]
    simp only [List.append_assoc]

/-- Every record has a name with a keyword. -/
theorem parseCard_keyword {card : List Str} {r : PollenData} (h : r ∈ parseCard card) :
    hasKeyword r.Name = true := by
  unfold parseCard at h
  split at h
  · exact absurd h (List.not_mem_nil _)
  · simp only at h
    split at h
    · split at h
      · next hk =>
        rw [List.mem_singleton.1 h]
        exact hk
      · exact absurd h (List.not_mem_nil _)
    · exact absurd h (List.not_mem_nil _)

theorem parse_keyword {html : Str} {r : PollenData} (h : r ∈ parsePollenData html) :
    hasKeyword r.Name = true := by
  obtain ⟨card, -, hr⟩ := List.mem_flatMap.1 h
  exact parseCard_keyword hr

/-- A card whose content lacks a name field or a status field gives no
record. -/
theorem parseCard_missing (w content : Str)
    (h : ¬ HasNameField content ∨ ¬ HasStatusField content) : parseCard [w, content] = [] := by
  rcases h with h | h
  · rcases find_name_cases content with hn | ⟨wn, inner, -, hni⟩
    · simp [parseCard, hn]
    · exact absurd ⟨inner, hni⟩ h
  · rcases find_status_cases content with hs | ⟨ws, status, -, hsi⟩
    · simp [parseCard, hs]
    · exact absurd ⟨status, hsi⟩ h

theorem decodeAmp_of_not_contains (s : Str) (h : ¬ "&amp;".toList <:+: s) : decodeAmp s = s := by
  induction s using decodeAmp.induct with
  | case1 s _ => exact absurd ⟨[], s, rfl⟩ h
  | case2 c s hneg ih =>
    rw [decodeAmp.eq_2 c s hneg, ih (fun hi => h (List.infix_cons_iff.2 (Or.inr hi)))]
  | case3 => rfl

theorem not_hasStatusField {content : Str}
    (h : Strings.Contains content "<div class=\"index-status-text\">".toList = false) :
    ¬ HasStatusField content := by
  rintro ⟨inner, a, b, rfl, -, -⟩
  rw [Strings.contains_eq_false_iff] at h
  apply h
  exact ⟨a, inner ++ "</div>".toList ++ b, by simp only [statusField, List.append_assoc]⟩

theorem not_hasNameField {content : Str}
    (h : Strings.Contains content "<div class=\"index-name\"".toList = false) :
    ¬ HasNameField content := by
  rintro ⟨inner, a, attrs, b, rfl, -, -, -⟩
  rw [Strings.contains_eq_false_iff] at h
  apply h
  exact ⟨a, attrs ++ ">".toList ++ inner ++ "</div>".toList ++ b, by
    simp only [nameField, List.append_assoc]⟩

theorem not_cardMatch {html : Str} (h : Strings.Contains html marker = false) :
    ¬ CardMatch html := by
  rintro ⟨c, pre, u, v, w, z, post, rfl, -, -, -, -⟩
  rw [Strings.contains_eq_false_iff] at h
  apply h
  exact ⟨pre ++ "<a".toList ++ u ++ "class=\"".toList ++ v,
    w ++ "\"".toList ++ z ++ ">".toList ++ c ++ "</a>".toList ++ post, by
    simp only [List.append_assoc]⟩

/-! ## The first fields of the content of a match -/

/-- A match found by the search is the first match at its position, and no
earlier position has a match. -/
theorem search_some_first {re : Pattern} {s : Str} {k : Nat} {m : Match}
    (h : search re s = some (k, m)) :
    ∃ a t, s = a ++ t ∧ a.length = k ∧ (run re t).head? = some m ∧
      ∀ a1 a2, a = a1 ++ a2 → a2 ≠ [] → run re (a2 ++ t) = [] := by
  induction s generalizing k with
  | nil =>
    obtain ⟨a, t, hs, hk, ht⟩ := search_some h
    obtain ⟨rfl, rfl⟩ := List.append_eq_nil.1 hs.symm
    refine ⟨[], [], rfl, hk, ht, ?_⟩
    intro a1 a2 ha ha2
    exact absurd (List.append_eq_nil.1 ha.symm).2 ha2
  | cons c s ih =>
    cases hh : (run re (c :: s)).head? with
    | some x =>
      rw [search, hh] at h
      simp only [Option.some.injEq, Prod.mk.injEq] at h
      obtain ⟨rfl, rfl⟩ := h
      refine ⟨[], c :: s, rfl, rfl, hh, ?_⟩
      intro a1 a2 ha ha2
      exact absurd (List.append_eq_nil.1 ha.symm).2 ha2
    | none =>
      rw [search, hh] at h
      simp only [Option.map_eq_some', Prod.mk.injEq, Prod.exists] at h
      obtain ⟨k1, m1, h1, rfl, rfl⟩ := h
      obtain ⟨a, t, rfl, rfl, ht, hfirst⟩ := ih h1
      refine ⟨c :: a, t, rfl, rfl, ht, ?_⟩
      intro a1 a2 ha ha2
      cases a1 with
      | nil =>
        simp only [List.nil_append] at ha
        rw [← ha]
        exact List.head?_eq_none_iff.1 hh
      | cons d a1 =>
        simp only [List.cons_append, List.cons.injEq] at ha
        exact hfirst a1 a2 ha.2 ha2

/-- Every match delivered by `FindAllStringSubmatch` is the first match of
the pattern at a position of the text. -/
theorem findAll_sound_head {re : Pattern} (hne : NonEmpty re) (n : Nat) :
    ∀ s : Str, s.length ≤ n → ∀ card ∈ FindAllStringSubmatch re s,
      ∃ a t m, s = a ++ t ∧ (run re t).head? = some m ∧ card = m.whole :: m.groups := by
  induction n with
  | zero =>
    intro s hs card hcard
    cases h : search re s with
    | none => rw [findAll_none h] at hcard; exact absurd hcard (List.not_mem_nil _)
    | some km =>
      obtain ⟨k, m⟩ := km
      have := search_rest_length hne h
      omega
  | succ n ih =>
    intro s hs card hcard
    cases h : search re s with
    | none => rw [findAll_none h] at hcard; exact absurd hcard (List.not_mem_nil _)
    | some km =>
      obtain ⟨k, m⟩ := km
      have hlen := search_rest_length hne h
      rw [findAll_some hne h] at hcard
      obtain ⟨a, t, rfl, -, ht⟩ := search_some h
      have hm := List.mem_of_mem_head? ht
      rcases List.mem_cons.1 hcard with rfl | hcard
      · exact ⟨a, t, m, rfl, ht, rfl⟩
      · obtain ⟨a2, t2, m2, h1, h2, h3⟩ := ih m.rest (by omega) card hcard
        refine ⟨a ++ (m.whole ++ a2), t2, m2, ?_, h2, h3⟩
        rw [run_append re hm, h1]
        simp only [List.append_assoc]

/-- A text that occurs in `c` has a first occurrence. -/
theorem first_occurrence (pat : Str) (hp : pat ≠ []) (c : Str) (h : pat <:+: c) :
    ∃ x y, c = x ++ (pat ++ y) ∧ ¬ pat <:+: x := by
  induction c with
  | nil => exact absurd (List.eq_nil_of_infix_nil h) hp
  | cons d c ih =>
    by_cases hpre : pat <+: d :: c
    · obtain ⟨y, hy⟩ := hpre
      exact ⟨[], y, hy.symm, fun hi => hp (List.eq_nil_of_infix_nil hi)⟩
    · rcases List.infix_cons_iff.1 h with h1 | h1
      · exact absurd h1 hpre
      · obtain ⟨x, y, hc, hx⟩ := ih h1
        refine ⟨d :: x, y, by rw [hc]; rfl, ?_⟩
        intro hi
        rcases List.infix_cons_iff.1 hi with h2 | h2
        · apply hpre
          refine h2.trans ?_
          rw [hc]
          exact ⟨pat ++ y, rfl⟩
        · exact hx h2

/-- The first match of the content part captures a text without `</a>`. -/
theorem bodyRegex_head_sound {s : Str} {m : Match} (h : (run bodyRegex s).head? = some m) :
    ∃ c, s = c ++ ("</a>".toList ++ m.rest) ∧ m.groups = [c] ∧ ¬ "</a>".toList <:+: c := by
  obtain ⟨c, hs, hg⟩ := run_bodyRegex_sound (List.mem_of_mem_head? h)
  refine ⟨c, hs, hg, ?_⟩
  intro hi
  obtain ⟨x, y, hc, hx⟩ := first_occurrence "</a>".toList (by decide) c hi
  have hs2 : s = x ++ ("</a>".toList ++ (y ++ ("</a>".toList ++ m.rest))) := by
    rw [hs, hc]; simp only [List.append_assoc]
  have hh := bodyRegex_head x (y ++ ("</a>".toList ++ m.rest)) hx
  rw [← hs2, h] at hh
  simp only [Option.some.injEq] at hh
  rw [hh] at hg
  simp only [List.cons.injEq, and_true] at hg
  have hlen := congrArg List.length hc
  rw [← hg] at hlen
  simp only [List.length_append] at hlen
  have : 0 < "</a>".toList.length := by decide
  omega

/-- Every card delivered to the loop of `parsePollenData` holds the content
of a match of the card pattern in the text, and the content has no
`</a>`. -/
theorem cards_sound_first {html : Str} {card : List Str}
    (h : card ∈ FindAllStringSubmatch cardRegex html) :
    ∃ w content, card = [w, content] ∧ CardContent html content ∧
      ¬ "</a>".toList <:+: content := by
  obtain ⟨a, t, m, rfl, hm, rfl⟩ :=
    findAll_sound_head nonEmpty_cardRegex _ html (Nat.le_refl _) card h
  rw [cardRegex_split, run_seq] at hm
  obtain ⟨m1, hm1, hh⟩ := head_flatMap_some hm
  rw [List.head?_map] at hh
  obtain ⟨m2, hm2, rfl⟩ := Option.map_eq_some'.1 hh
  obtain ⟨u, v, w, z, hu, hv, hw, hz, ht, hg⟩ := run_tagRegex_sound hm1
  obtain ⟨c, hc, hg2, hfree⟩ := bodyRegex_head_sound hm2
  refine ⟨m1.whole ++ m2.whole, c, by simp only [hg, hg2, List.nil_append],
    ⟨a, u, v, w, z, m2.rest, ?_, hu, hv, hw, hz⟩, hfree⟩
  rw [ht, hc]
  simp only [List.append_assoc]

/-- The result of `FindStringSubmatch` of the name pattern: nothing, or the
inner text of the first name field of the content. -/
theorem find_name_first (content : Str) :
    FindStringSubmatch nameRegex content = [] ∨
      ∃ wn inner, FindStringSubmatch nameRegex content = [wn, inner] ∧
        FirstNameField content inner := by
  rw [FindStringSubmatch]
  cases h : search nameRegex content with
  | none => exact Or.inl rfl
  | some km =>
    obtain ⟨k, m⟩ := km
    right
    obtain ⟨a, t, rfl, -, ht, hfirst⟩ := search_some_first h
    obtain ⟨attrs, inner, h1, h2, h3, h4, h5⟩ := run_nameRegex_sound (List.mem_of_mem_head? ht)
    refine ⟨m.whole, inner, by simp only [h5], a, attrs, m.rest, ?_, h1, h2, h3, ?_⟩
    · rw [h4, List.append_assoc]
    · rintro a1 a2 ha ha2 ⟨attrs2, inner2, b2, heq, g1, g2, g3⟩
      have hrun := hfirst a1 a2 ha ha2
      rw [h4, ← List.append_assoc, heq] at hrun
      have hhead := nameRegex_head attrs2 inner2 b2 g1 g2 g3
      rw [hrun] at hhead
      exact absurd hhead (by simp)

/-- The result of `FindStringSubmatch` of the status pattern: nothing, or the
inner text of the first status field of the content. -/
theorem find_status_first (content : Str) :
    FindStringSubmatch statusRegex content = [] ∨
      ∃ ws inner, FindStringSubmatch statusRegex content = [ws, inner] ∧
        FirstStatusField content inner := by
  rw [FindStringSubmatch]
  cases h : search statusRegex content with
  | none => exact Or.inl rfl
  | some km =>
    obtain ⟨k, m⟩ := km
    right
    obtain ⟨a, t, rfl, -, ht, hfirst⟩ := search_some_first h
    obtain ⟨inner, h2, h3, h4, h5⟩ := run_statusRegex_sound (List.mem_of_mem_head? ht)
    refine ⟨m.whole, inner, by simp only [h5], a, m.rest, ?_, h2, h3, ?_⟩
    · rw [h4, List.append_assoc]
    · rintro a1 a2 ha ha2 ⟨inner2, b2, heq, g2, g3⟩
      have hrun := hfirst a1 a2 ha ha2
      rw [h4, ← List.append_assoc, heq] at hrun
      have hhead := statusRegex_head inner2 b2 g2 g3
      rw [hrun] at hhead
      exact absurd hhead (by simp)

/-- Every record comes from the first name field and the first status field
of the content of its card. -/
theorem parseCard_sound_first {w content : Str} {r : PollenData}
    (h : r ∈ parseCard [w, content]) :
    ∃ inner status, FirstNameField content inner ∧ FirstStatusField content status ∧
      r.Name = decodeAmp (Strings.TrimSpace inner) ∧ r.Status = Strings.TrimSpace status := by
  rcases find_name_first content with hn | ⟨wn, inner, hn, hni⟩
  · simp [parseCard, hn] at h
  · rcases find_status_first content with hs | ⟨ws, status, hs, hsi⟩
    · simp [parseCard, hs] at h
    · rw [parseCard_fields w content wn inner ws status hn hs] at h
      split at h
      · rw [List.mem_singleton.1 h]
        exact ⟨inner, status, hni, hsi, replaceAll_amp _, rfl⟩
      · exact absurd h (List.not_mem_nil _)

/-- The inner text of the first name field is determined by the content. -/
theorem firstNameField_unique {content i1 i2 : Str} (h1 : FirstNameField content i1)
    (h2 : FirstNameField content i2) : i1 = i2 := by
  obtain ⟨a, attrs, b, hc, ha, hne, hlt, hfirst⟩ := h1
  obtain ⟨a2, attrs2, b2, hc2, ha2, hne2, hlt2, hfirst2⟩ := h2
  have heq : a ++ (nameField attrs i1 ++ b) = a2 ++ (nameField attrs2 i2 ++ b2) := by
    rw [← List.append_assoc, ← List.append_assoc, ← hc, ← hc2]
  have hfield : nameField attrs i1 ++ b = nameField attrs2 i2 ++ b2 := by
    rcases List.append_eq_append_iff.1 heq with ⟨e, he1, he2⟩ | ⟨e, he1, he2⟩
    · cases e with
      | nil => simpa using he2
      | cons d e =>
        exfalso
        refine hfirst2 a (d :: e) he1 (by simp) ⟨attrs, i1, b, ?_, ha, hne, hlt⟩
        rw [List.append_assoc, ← he2]
    · cases e with
      | nil => simpa using he2.symm
      | cons d e =>
        exfalso
        refine hfirst a2 (d :: e) he1 (by simp) ⟨attrs2, i2, b2, ?_, ha2, hne2, hlt2⟩
        rw [List.append_assoc, ← he2]
  simp only [nameField, List.append_assoc, List.append_cancel_left_eq] at hfield
  have h3 : attrs ++ '>' :: (i1 ++ ("</div>".toList ++ b)) =
      attrs2 ++ '>' :: (i2 ++ ("</div>".toList ++ b2)) := hfield
  obtain ⟨-, h4⟩ := Strings.split_first ha ha2 h3
  have h5 : i1 ++ '<' :: ("/div>".toList ++ b) = i2 ++ '<' :: ("/div>".toList ++ b2) := h4
  exact (Strings.split_first hlt hlt2 h5).1

/-- The inner text of the first status field is determined by the
content. -/
theorem firstStatusField_unique {content i1 i2 : Str} (h1 : FirstStatusField content i1)
    (h2 : FirstStatusField content i2) : i1 = i2 := by
  obtain ⟨a, b, hc, hne, hlt, hfirst⟩ := h1
  obtain ⟨a2, b2, hc2, hne2, hlt2, hfirst2⟩ := h2
  have heq : a ++ (statusField i1 ++ b) = a2 ++ (statusField i2 ++ b2) := by
    rw [← List.append_assoc, ← List.append_assoc, ← hc, ← hc2]
  have hfield : statusField i1 ++ b = statusField i2 ++ b2 := by
    rcases List.append_eq_append_iff.1 heq with ⟨e, he1, he2⟩ | ⟨e, he1, he2⟩
    · cases e with
      | nil => simpa using he2
      | cons d e =>
        exfalso
        refine hfirst2 a (d :: e) he1 (by simp) ⟨i1, b, ?_, hne, hlt⟩
        rw [List.append_assoc, ← he2]
    · cases e with
      | nil => simpa using he2.symm
      | cons d e =>
        exfalso
        refine hfirst a2 (d :: e) he1 (by simp) ⟨i2, b2, ?_, hne2, hlt2⟩
        rw [List.append_assoc, ← he2]
  simp only [statusField, List.append_assoc, List.append_cancel_left_eq] at hfield
  have h5 : i1 ++ '<' :: ("/div>".toList ++ b) = i2 ++ '<' :: ("/div>".toList ++ b2) := hfield
  exact (Strings.split_first hlt hlt2 h5).1

/-! ## Trimming -/

/-- What `strings.TrimSpace` returns is the text trimmed of the white space
around it. -/
theorem trimSpace_trimmed (s : Str) : Trimmed s (Strings.TrimSpace s) := by
  have h1 := List.takeWhile_append_dropWhile Strings.isSpace s
  have h2 := List.takeWhile_append_dropWhile Strings.isSpace (s.dropWhile Strings.isSpace).reverse
  have h3 : s.dropWhile Strings.isSpace = Strings.TrimSpace s ++
      ((s.dropWhile Strings.isSpace).reverse.takeWhile Strings.isSpace).reverse := by
    have := congrArg List.reverse h2
    simp only [List.reverse_append, List.reverse_reverse] at this
    rw [Strings.TrimSpace]
    exact this.symm
  refine ⟨s.takeWhile Strings.isSpace,
    ((s.dropWhile Strings.isSpace).reverse.takeWhile Strings.isSpace).reverse, ?_, ?_, ?_, ?_, ?_⟩
  · rw [List.append_assoc, ← h3, h1]
  · intro c hc; exact List.mem_takeWhile_imp hc
  · intro c hc; exact List.mem_takeWhile_imp (List.mem_reverse.1 hc)
  · intro c u hcu
    have hd := List.head?_dropWhile_not Strings.isSpace s
    rw [h3, hcu] at hd
    simpa using hd
  · intro u c huc
    have hd := List.head?_dropWhile_not Strings.isSpace (s.dropWhile Strings.isSpace).reverse
    have hr : (s.dropWhile Strings.isSpace).reverse.dropWhile Strings.isSpace =
        c :: u.reverse := by
      have := congrArg List.reverse huc
      simpa [Strings.TrimSpace] using this
    rw [hr] at hd
    simpa using hd

/-- The text trimmed of the white space around it is what
`strings.TrimSpace` returns. -/
theorem trimmed_eq {s t : Str} (h : Trimmed s t) : t = Strings.TrimSpace s := by
  obtain ⟨l, r, rfl, hl, hr, hhead, hlast⟩ := h
  cases t with
  | nil =>
    have hall : ∀ c ∈ l ++ [] ++ r, Strings.isSpace c = true := by
      intro c hc
      simp only [List.append_nil, List.mem_append] at hc
      rcases hc with hc | hc
      · exact hl c hc
      · exact hr c hc
    rw [Strings.TrimSpace, List.dropWhile_eq_nil_iff.2 hall]
    rfl
  | cons c u =>
    have hc : Strings.isSpace c = false := hhead c u rfl
    obtain ⟨v, d, hvd⟩ : ∃ v d, c :: u = v ++ [d] :=
      ⟨(c :: u).dropLast, (c :: u).getLast (by simp),
        (List.dropLast_append_getLast (by simp)).symm⟩
    have hd : Strings.isSpace d = false := hlast v d hvd
    have hrr : ∀ a ∈ r.reverse, Strings.isSpace a = true := fun a ha =>
      hr a (List.mem_reverse.1 ha)
    rw [Strings.TrimSpace, List.append_assoc, List.dropWhile_append_of_pos hl,
      List.cons_append, List.dropWhile_cons_of_neg (by simp [hc]), ← List.cons_append,
      List.reverse_append, List.dropWhile_append_of_pos hrr, hvd, List.reverse_append,
      List.reverse_singleton, List.singleton_append,
      List.dropWhile_cons_of_neg (by simp [hd])]
    simp

set_option maxRecDepth 100000

/-- C1: a text with one card fragment, whose content has a first name field
with the inner text `inner` and a first status field with the inner text
`status`, the trimmed name holding a keyword, gives exactly one record: the
trimmed name with `&amp;` decoded, and the trimmed status.  The card is the
only one: the marker occurs neither before the value of the class attribute
nor after the fragment, and no class attribute starts after the value. -/
theorem parsePollenData_single_card
    (pre before value after content post a attrs inner b a2 status b2 : Str)
    (hbefore : '>' ∉ before) (hafter : '>' ∉ after) (hvalue : dq ∉ value)
    (hmarker : Strings.Contains value marker = true)
    (hpre : Strings.Contains (pre ++ "<a".toList ++ before ++ "class=\"".toList) marker = false)
    (hclass : Strings.Contains (value ++ "\"".toList ++ after) "class=\"".toList = false)
    (hpost : Strings.Contains post marker = false)
    (hcontent : Strings.Contains content "</a>".toList = false)
    (hname : content = a ++ nameField attrs inner ++ b)
    (ha : Strings.Contains a "<div class=\"index-name\"".toList = false)
    (hattrs : '>' ∉ attrs) (hinner : inner ≠ []) (hlt : '<' ∉ inner)
    (hstatus : content = a2 ++ statusField status ++ b2)
    (ha2 : Strings.Contains a2 "<div class=\"index-status-text\">".toList = false)
    (hst : status ≠ []) (hst2 : '<' ∉ status)
    (hkw : hasKeyword (Strings.TrimSpace inner) = true) :
    parsePollenData (pre ++ cardText before value after content ++ post) =
      [⟨decodeAmp (Strings.TrimSpace inner), Strings.TrimSpace status⟩] := by
  subst hname
  have hwf : (Card.mk pre before value after a attrs inner b a2 status b2).wellFormed = true := by
    simp only [Card.wellFormed, Card.content, Bool.and_eq_true, decide_eq_true_eq,
      Bool.not_eq_true']
    exact ⟨⟨⟨⟨⟨⟨⟨⟨⟨⟨⟨⟨⟨⟨hbefore, hafter⟩, hvalue⟩, hmarker⟩, hpre⟩, hclass⟩, hcontent⟩, hstatus⟩,
      ha⟩, hattrs⟩, hinner⟩, hlt⟩, ha2⟩, hst⟩, hst2⟩
  have h := parse_wellFormed _ post hwf
  have hk : hasKeyword (decodeAmp (Strings.TrimSpace inner)) = true := by
    rw [← replaceAll_amp]; exact hasKeyword_replaceAll _ hkw
  rw [parse_no_marker ((Strings.contains_eq_false_iff _ _).1 hpost)] at h
  simp only [Card.text, Card.content, Card.record, hk, if_true, List.append_nil] at h
  exact h

/-- The witness of C1: a card with further attributes, white space around the
inner texts and an `&amp;` in the name. -/
theorem parsePollenData_single_card_witness :
    parsePollenData (grassCard.lead ++
        cardText grassCard.before grassCard.value grassCard.after grassCard.content ++
        "</html>".toList) =
      [⟨"Tree & Grass Pollen".toList, "Very High".toList⟩] :=
  parsePollenData_single_card grassCard.lead grassCard.before grassCard.value grassCard.after
    grassCard.content "</html>".toList grassCard.a grassCard.attrs grassCard.inner grassCard.b
    grassCard.a2 grassCard.status grassCard.b2
    (by decide) (by decide) (by decide) (by decide) (by decide) (by decide) (by decide)
    (by decide) (by decide) (by decide) (by decide) (by decide) (by decide) (by decide)
    (by decide) (by decide) (by decide) (by decide)

/-- C2: every record returned has a name whose lower case form contains
`pollen`, `mold` or `dust`; a well-formed card, with its name field and its
status field, whose name has none of them gives no record; the two cards
`Tree Pollen`/`Low` and `UV Index`/`High` give the one record of the
first. -/
theorem parsePollenData_keyword :
    (∀ html r, r ∈ parsePollenData html →
      Strings.Contains (Strings.ToLower r.Name) "pollen".toList = true ∨
      Strings.Contains (Strings.ToLower r.Name) "mold".toList = true ∨
      Strings.Contains (Strings.ToLower r.Name) "dust".toList = true) ∧
    (∀ (c : Card) (post : Str), c.wellFormed = true → hasKeyword c.record.Name = false →
      Strings.Contains post marker = false → parsePollenData (c.text ++ post) = []) ∧
    parsePollenData twoCards = [⟨"Tree Pollen".toList, "Low".toList⟩] := by
  refine ⟨?_, ?_, by decide⟩
  · intro html r h
    have := parse_keyword h
    simp only [hasKeyword, Bool.or_eq_true] at this
    rcases this with (h | h) | h
    · exact Or.inl h
    · exact Or.inr (Or.inl h)
    · exact Or.inr (Or.inr h)
  · intro c post hwf hk hpost
    rw [parse_wellFormed c post hwf, parse_no_marker ((Strings.contains_eq_false_iff _ _).1 hpost)]
    simp [hk]

/-- The witness of C2: the record of the two cards has a keyword, and the
card `UV Index` alone gives nothing. -/
theorem parsePollenData_keyword_witness :
    (Strings.Contains (Strings.ToLower "Tree Pollen".toList) "pollen".toList = true ∨
      Strings.Contains (Strings.ToLower "Tree Pollen".toList) "mold".toList = true ∨
      Strings.Contains (Strings.ToLower "Tree Pollen".toList) "dust".toList = true) ∧
    parsePollenData (uvCard.text ++ "</html>".toList) = [] :=
  ⟨parsePollenData_keyword.1 twoCards ⟨"Tree Pollen".toList, "Low".toList⟩ (by decide),
   parsePollenData_keyword.2.1 uvCard "</html>".toList (by decide) (by decide) (by decide)⟩

/-- C3: a text whose only card fragment has a content without a name field,
or without a status field, gives no record. -/
theorem parsePollenData_missing_field (pre before value after content post : Str)
    (hbefore : '>' ∉ before) (hafter : '>' ∉ after) (hvalue : dq ∉ value)
    (hmarker : Strings.Contains value marker = true)
    (hpre : Strings.Contains (pre ++ "<a".toList ++ before ++ "class=\"".toList) marker = false)
    (hclass : Strings.Contains (value ++ "\"".toList ++ after) "class=\"".toList = false)
    (hpost : Strings.Contains post marker = false)
    (hcontent : Strings.Contains content "</a>".toList = false)
    (hfield : ¬ HasNameField content ∨ ¬ HasStatusField content) :
    parsePollenData (pre ++ cardText before value after content ++ post) = [] := by
  have hpre2 : ¬ marker <:+: pre ++ ("<a".toList ++ (before ++ "class=\"".toList)) := by
    rw [← Strings.contains_eq_false_iff]
    simpa only [List.append_assoc] using hpre
  have hclass2 : ¬ "class=\"".toList <:+: value ++ ("\"".toList ++ after) := by
    rw [← Strings.contains_eq_false_iff]
    simpa only [List.append_assoc] using hclass
  obtain ⟨w, hw⟩ := parse_card_step pre before value after content post hbefore hafter hvalue
    ((Strings.contains_iff _ _).1 hmarker) hpre2 hclass2
    ((Strings.contains_eq_false_iff _ _).1 hcontent)
  rw [List.append_assoc, hw, parseCard_missing w content hfield,
    parse_no_marker ((Strings.contains_eq_false_iff _ _).1 hpost)]
  rfl

/-- The witness of C3: a card with a name field that holds a keyword and no
status field, and a card with a status field and no name field. -/
theorem parsePollenData_missing_field_witness :
    parsePollenData ("<html>".toList ++ cardText " ".toList "index-list-card".toList []
      "<div class=\"index-name\">Tree Pollen</div>".toList ++ "</html>".toList) = [] ∧
    parsePollenData ("<html>".toList ++ cardText " ".toList "index-list-card".toList []
      "<div class=\"index-status-text\">Low</div>".toList ++ "</html>".toList) = [] :=
  ⟨parsePollenData_missing_field "<html>".toList " ".toList "index-list-card".toList []
    "<div class=\"index-name\">Tree Pollen</div>".toList "</html>".toList
    (by decide) (by decide) (by decide) (by decide) (by decide) (by decide) (by decide)
    (by decide) (Or.inr (not_hasStatusField (by decide))),
   parsePollenData_missing_field "<html>".toList " ".toList "index-list-card".toList []
    "<div class=\"index-status-text\">Low</div>".toList "</html>".toList
    (by decide) (by decide) (by decide) (by decide) (by decide) (by decide) (by decide)
    (by decide) (Or.inl (not_hasNameField (by decide)))⟩

/-- C4: the records come in the order of the cards.  A sequence of
well-formed cards whose names hold a keyword, each with the text before it,
followed by a text without the marker, gives the records of the cards, one
for each card and in the same order. -/
theorem parsePollenData_order (cards : List Card) (tail : Str)
    (hcards : ∀ c ∈ cards, c.wellFormed = true ∧ hasKeyword (Strings.TrimSpace c.inner) = true)
    (htail : Strings.Contains tail marker = false) :
    parsePollenData (cards.flatMap Card.text ++ tail) = cards.map Card.record := by
  induction cards with
  | nil =>
    simp only [List.flatMap_nil, List.nil_append, List.map_nil]
    exact parse_no_marker ((Strings.contains_eq_false_iff _ _).1 htail)
  | cons c cards ih =>
    obtain ⟨hwf, hkw⟩ := hcards c (List.mem_cons_self _ _)
    have hk : hasKeyword c.record.Name = true := by
      rw [Card.record, ← replaceAll_amp]; exact hasKeyword_replaceAll _ hkw
    rw [List.flatMap_cons, List.append_assoc, parse_wellFormed c _ hwf,
      ih (fun d hd => hcards d (List.mem_cons_of_mem _ hd))]
    simp only [hk, if_true, List.map_cons, List.singleton_append]

/-- The witness of C4: two cards in sequence give their two records in the
same order. -/
theorem parsePollenData_order_witness :
    parsePollenData ([grassCard, moldCard].flatMap Card.text ++ "</html>".toList) =
      [⟨"Tree & Grass Pollen".toList, "Very High".toList⟩, ⟨"Mold".toList, "Low".toList⟩] :=
  parsePollenData_order [grassCard, moldCard] "</html>".toList (by decide) (by decide)

/-- C5: a text in which the card pattern has no match gives the empty
sequence. -/
theorem parsePollenData_no_card (html : Str) (h : ¬ CardMatch html) :
    parsePollenData html = [] := by
  rw [parsePollenData, findAll_none (search_card_of_not_match h)]
  rfl

/-- The witness of C5: the empty text, and a text without a card. -/
theorem parsePollenData_no_card_witness :
    parsePollenData [] = [] ∧
    parsePollenData "<html><a href=\"/\">home</a><p>no data</p></html>".toList = [] :=
  ⟨parsePollenData_no_card [] (not_cardMatch (by decide)),
   parsePollenData_no_card _ (not_cardMatch (by decide))⟩

/-- C6: only `&amp;` is decoded, and only in the name.  Every record comes
from the content of a match of the card pattern, a content without `</a>`:
its name is the inner text of the first name field of that content, trimmed
and then put through the one pass that replaces `&amp;` by `&`, and its
status is the inner text of the first status field of the same content,
trimmed and not changed otherwise; the name holds a keyword.  The content
determines the two inner texts; `strings.TrimSpace` is the removal of the
white space around a text;
`strings.ReplaceAll` with `&amp;` and `&` is the one pass, and the pass
changes nothing in a text without `&amp;`.  In the example `&lt;` and
`&quot;` stay in the name, `&amp;` stays in the status and the white space
around both is removed. -/
theorem parsePollenData_decoding :
    (∀ html r, r ∈ parsePollenData html →
      ∃ content inner status, CardContent html content ∧
        Strings.Contains content "</a>".toList = false ∧
        FirstNameField content inner ∧ FirstStatusField content status ∧
        r.Name = decodeAmp (Strings.TrimSpace inner) ∧
        r.Status = Strings.TrimSpace status ∧ hasKeyword r.Name = true) ∧
    (∀ content i1 i2, FirstNameField content i1 → FirstNameField content i2 → i1 = i2) ∧
    (∀ content i1 i2, FirstStatusField content i1 → FirstStatusField content i2 → i1 = i2) ∧
    (∀ s t, Trimmed s t ↔ t = Strings.TrimSpace s) ∧
    (∀ s, Strings.ReplaceAll s "&amp;".toList "&".toList = decodeAmp s) ∧
    (∀ s, Strings.Contains s "&amp;".toList = false → decodeAmp s = s) ∧
    parsePollenData entityCard =
      [⟨"Dust & Dander &lt;&quot;".toList, "Low &amp; rising".toList⟩] ∧
    parsePollenData twoRecords =
      [⟨"Tree Pollen".toList, "Low".toList⟩, ⟨"Mold".toList, "High".toList⟩] := by
  refine ⟨?_, fun _ _ _ => firstNameField_unique, fun _ _ _ => firstStatusField_unique, ?_,
    replaceAll_amp, ?_, by decide, by decide⟩
  · intro html r h
    obtain ⟨card, hcard, hr⟩ := List.mem_flatMap.1 h
    obtain ⟨w, content, rfl, hc, hfree⟩ := cards_sound_first hcard
    obtain ⟨inner, status, h1, h2, h3, h4⟩ := parseCard_sound_first hr
    exact ⟨content, inner, status, hc, (Strings.contains_eq_false_iff _ _).2 hfree, h1, h2,
      h3, h4, parse_keyword h⟩
  · intro s t
    exact ⟨trimmed_eq, fun h => h ▸ trimSpace_trimmed s⟩
  · intro s hs
    exact decodeAmp_of_not_contains s ((Strings.contains_eq_false_iff _ _).1 hs)

/-- The witness of C6: the record of the example comes from the first fields
of the content of its card, whose inner texts have white space around them;
the pass leaves `&lt;b&gt;` as it is. -/
theorem parsePollenData_decoding_witness :
    (∃ content inner status, CardContent entityCard content ∧
        Strings.Contains content "</a>".toList = false ∧
        FirstNameField content inner ∧ FirstStatusField content status ∧
        "Dust & Dander &lt;&quot;".toList = decodeAmp (Strings.TrimSpace inner) ∧
        "Low &amp; rising".toList = Strings.TrimSpace status ∧
        hasKeyword "Dust & Dander &lt;&quot;".toList = true) ∧
    decodeAmp "&lt;b&gt;".toList = "&lt;b&gt;".toList ∧
    "Low &amp; rising".toList = Strings.TrimSpace "\u00a0Low &amp; rising  ".toList :=
  ⟨parsePollenData_decoding.1 entityCard
      ⟨"Dust & Dander &lt;&quot;".toList, "Low &amp; rising".toList⟩ (by decide),
   parsePollenData_decoding.2.2.2.2.2.1 "&lt;b&gt;".toList (by decide),
   (parsePollenData_decoding.2.2.2.1 "\u00a0Low &amp; rising  ".toList
      "Low &amp; rising".toList).1
     ⟨"\u00a0".toList, "  ".toList, by decide, by decide, by decide,
      by
        intro c u h
        have h2 := congrArg List.head? h
        simp only [String.toList, List.head?_cons, Option.some.injEq] at h2
        rw [← h2]; decide,
      by
        intro u c h
        have h2 := congrArg (fun l => l.reverse.head?) h
        simp at h2
        subst h2
        decide⟩⟩

/-- C8: the decoding of the body of a response with the status 200.  With the
encoding `gzip`, the text given to `parsePollenData` is the text the gzip
reader delivers: for a body that is the compressed markup it is the markup.
With any other encoding it is the body as it is, and there is no failure. -/
theorem fetchPollenData_decoding (resp : Response) (gzipNewReader : Reader → Except Str Reader)
    (compress : Str → Str) (markup : Str)
    (hround : ∀ m, gzipNewReader (.ok (compress m)) = .ok (.ok m))
    (h200 : resp.StatusCode = 200) :
    (resp.ContentEncoding = "gzip".toList → ∀ text, gzipNewReader resp.Body = .ok (.ok text) →
      fetchPollenData (.ok resp) gzipNewReader = .ok (parsePollenData text)) ∧
    (resp.ContentEncoding = "gzip".toList → resp.Body = .ok (compress markup) →
      fetchPollenData (.ok resp) gzipNewReader = .ok (parsePollenData markup)) ∧
    (resp.ContentEncoding ≠ "gzip".toList → resp.Body = .ok markup →
      fetchPollenData (.ok resp) gzipNewReader = .ok (parsePollenData markup)) := by
  have hgz : resp.ContentEncoding = "gzip".toList → ∀ text,
      gzipNewReader resp.Body = .ok (.ok text) →
      fetchPollenData (.ok resp) gzipNewReader = .ok (parsePollenData text) := by
    intro henc text hgz
    simp only [fetchPollenData, h200, bne_self_eq_false, Bool.false_eq_true, if_false, henc,
      if_true, hgz]
  refine ⟨hgz, ?_, ?_⟩
  · intro henc hbody
    exact hgz henc markup (by rw [hbody, hround])
  · intro henc hbody
    simp only [fetchPollenData, h200, bne_self_eq_false, Bool.false_eq_true, if_false, henc,
      ite_self, hbody]

/-- The witness of C8: the two cards, compressed and declared `gzip`, and the
two cards as they are, declared `br`. -/
theorem fetchPollenData_decoding_witness :
    fetchPollenData (.ok ⟨200, "200 OK".toList, "gzip".toList, .ok (toyCompress twoCards)⟩)
        toyReader = .ok (parsePollenData twoCards) ∧
    fetchPollenData (.ok ⟨200, "200 OK".toList, "br".toList, .ok twoCards⟩)
        toyReader = .ok (parsePollenData twoCards) :=
  ⟨(fetchPollenData_decoding ⟨200, "200 OK".toList, "gzip".toList, .ok (toyCompress twoCards)⟩
      toyReader toyCompress twoCards (fun _ => rfl) rfl).2.1 rfl rfl,
   (fetchPollenData_decoding ⟨200, "200 OK".toList, "br".toList, .ok twoCards⟩
      toyReader toyCompress twoCards (fun _ => rfl) rfl).2.2 (by decide) rfl⟩

/-- C9: the exit code is 0 exactly when the fetch succeeds with at least one
record, and 1 otherwise; with the exit code 1 no line of a record is
printed, and with the exit code 0 one line is printed for each record. -/
theorem main_exit_code (fetched : Except Str (List PollenData)) :
    ((main fetched).2 = 0 ↔ ∃ recs, fetched = .ok recs ∧ recs ≠ []) ∧
    ((main fetched).2 = 1 ↔ (∃ err, fetched = .error err) ∨ fetched = .ok []) ∧
    ((main fetched).2 = 1 → ∀ l ∈ (main fetched).1, l.isRecord = false) ∧
    (∀ recs, fetched = .ok recs → recs ≠ [] →
      ((main fetched).1.filter Line.isRecord).length = recs.length) := by
  cases fetched with
  | error err => simp [main, Line.isRecord]
  | ok recs =>
    cases recs with
    | nil => simp [main, Line.isRecord]
    | cons r recs =>
      simp only [main, List.length_cons, Nat.add_one_ne_zero, beq_iff_eq, if_false,
        true_iff, ne_eq, Except.ok.injEq, exists_eq_left', not_false_eq_true, reduceCtorEq,
        exists_false, or_self, iff_false, Nat.zero_ne_one, IsEmpty.forall_iff, implies_true,
        true_and, List.cons_ne_nil, Nat.reduceEqDiff]
      intro recs2 h _
      rw [← h]
      simp [List.filter_cons, List.filter_map, Line.isRecord, Function.comp_def]

/-- C10 as it is stated fails: the card whose name field has only white
space inside, and a status field, gives no record, and no text gives a record
whose name is the empty string, since the empty name has no keyword. -/
theorem no_record_with_empty_name :
    parsePollenData blankNameCard = [] ∧
    ¬ ∃ html r, r ∈ parsePollenData html ∧ r.Name = [] := by
  refine ⟨by decide, ?_⟩
  rintro ⟨html, r, h, hr⟩
  have := parse_keyword h
  rw [hr] at this
  exact absurd this (by decide)

/-- C10, amended: an inner text that is empty after the trimming is accepted
for the status, and the record has the empty status.  For the name it is
matched by the name pattern, no check for emptiness is made, and the record
is then dropped by the keyword filter, so that no record has the empty
name. -/
theorem empty_status_accepted :
    parsePollenData blankStatusCard = [⟨"Dust".toList, []⟩] ∧
    Regexp.FindStringSubmatch nameRegex blankNameContent =
      ["<div class=\"index-name\">  </div>".toList, "  ".toList] ∧
    parseCard ["".toList, blankNameContent] = [] ∧
    ∀ html r, r ∈ parsePollenData html → r.Name ≠ [] := by
  refine ⟨by decide, by decide, by decide, ?_⟩
  intro html r h hr
  have := parse_keyword h
  rw [hr] at this
  exact absurd this (by decide)

/-- The witness of the amended C10: the name of the record of the two cards
is not empty. -/
theorem empty_status_accepted_witness : ("Tree Pollen".toList : Str) ≠ [] :=
  empty_status_accepted.2.2.2 twoCards ⟨"Tree Pollen".toList, "Low".toList⟩ (by decide)

end Pollen
